import Mathlib

/-!
Verification of the text-analytics core of the `time-machine` static-site
generator (`scripts/sync-obsidian.js` build half, and `scripts/clean.js`).

Strings are modelled as `List Char`; JS `Number` values that feed the
variance ranking and the sparkline geometry are modelled as exact
fractions of machine-unbounded integers (`Frac` below), which agrees with
IEEE doubles on every arithmetic fact used by the claims (small integers,
divisions by 1, sign comparisons of exact values).

Definitions are transcribed from the JavaScript source; each definition
notes the source function it embeds.
-/

/-- JS `\s` whitespace class members that can occur in our texts
(space, tab, LF, CR, VT, FF, NBSP, BOM). -/
def jsWs (c : Char) : Bool :=
  c = ' ' || c = '\t' || c = '\n' || c = '\r' ||
  c = Char.ofNat 11 || c = Char.ofNat 12 ||
  c = Char.ofNat 160 || c = Char.ofNat 65279

/-- JS regex word character (`\w`, the class used by `\b` boundaries):
ASCII letters, digits, underscore. -/
def isWordCharJs (c : Char) : Bool :=
  (('a' ≤ c && c ≤ 'z') || ('A' ≤ c && c ≤ 'Z') || ('0' ≤ c && c ≤ '9') || c = '_')

/-- ASCII digit test, as in the regex class `\d`. -/
def isDigitJs (c : Char) : Bool := '0' ≤ c && c ≤ '9'

/-- `String.prototype.split('\n')`: split a text into lines at newline
characters; always returns at least one (possibly empty) line. -/
def splitNl : List Char → List (List Char)
  | [] => [[]]
  | '\n' :: rest => [] :: splitNl rest
  | c :: rest =>
    match splitNl rest with
    | [] => [[c]]
    | l :: ls => (c :: l) :: ls

/-- `Array.prototype.join('\n')`. -/
def joinNl : List (List Char) → List Char
  | [] => []
  | [l] => l
  | l :: ls => l ++ '\n' :: joinNl ls

/-- Helper for `collapseNl`: when the flag is set we have just emitted a
collapsed pair of newlines and are still consuming the same newline run. -/
def collapseNlAux : Bool → List Char → List Char
  | _, [] => []
  | true, '\n' :: rest => collapseNlAux true rest
  | true, c :: rest => c :: collapseNlAux false rest
  | false, '\n' :: '\n' :: rest => '\n' :: '\n' :: collapseNlAux true rest
  | false, c :: rest => c :: collapseNlAux false rest

/-- `.replace(/\n{3,}/g, '\n\n')`: every maximal run of three or more
newlines becomes exactly two. -/
def collapseNl (l : List Char) : List Char := collapseNlAux false l

/-- `String.prototype.trim()`: drop JS whitespace from both ends. -/
def trimJs (l : List Char) : List Char :=
  ((l.dropWhile jsWs).reverse.dropWhile jsWs).reverse

/-- Case-insensitive literal match: if `l` starts (case-insensitively)
with `pat`, return the remainder.  `pat` is given in lowercase. -/
def ciStarts : List Char → List Char → Option (List Char)
  | [], l => some l
  | _ :: _, [] => none
  | p :: ps, c :: cs => if Char.toLower c = p then ciStarts ps cs else none

/-- True when the line continues with a word character (i.e. a `\b`
boundary check at this point fails). -/
def headIsWord : List Char → Bool
  | [] => false
  | c :: _ => isWordCharJs c

/-- True when the next character exists and is JS whitespace (`\s+` needs
at least one). -/
def headIsWs : List Char → Bool
  | [] => false
  | c :: _ => jsWs c

/-- `/^\s*#{0,6}\s*Must Do'?s\b/i` — the "Must Do's" header marker line.
Up to six `#` characters are allowed; seven or more defeat the match
(the literal `M` cannot consume a `#`). -/
def isMustDoLine (l : List Char) : Bool :=
  let l1 := l.dropWhile jsWs
  let hs := l1.takeWhile (· = '#')
  if 6 < hs.length then false
  else
    let l2 := (l1.drop hs.length).dropWhile jsWs
    match ciStarts "must do".toList l2 with
    | none => false
    | some r =>
      let r1 := match r with
        | '\'' :: t => t
        | _ => r
      match ciStarts "s".toList r1 with
      | none => false
      | some r2 => !headIsWord r2

/-- `/^\s*[-*+]\s+/` — bulleted list item. -/
def isBulletLine (l : List Char) : Bool :=
  match l.dropWhile jsWs with
  | c :: r => (c = '-' || c = '*' || c = '+') && headIsWs r
  | [] => false

/-- `/^\s*\d+\.\s+/` — numbered list item. -/
def isNumberedLine (l : List Char) : Bool :=
  let l1 := l.dropWhile jsWs
  let ds := l1.takeWhile isDigitJs
  if ds.isEmpty then false
  else
    match l1.drop ds.length with
    | '.' :: r => headIsWs r
    | _ => false

/-- `/^\s*\[[ xX]\]\s+/` — checkbox list item. -/
def isCheckboxLine (l : List Char) : Bool :=
  match l.dropWhile jsWs with
  | '[' :: c :: ']' :: r => (c = ' ' || c = 'x' || c = 'X') && headIsWs r
  | _ => false

/-- `/^\s*$/` — blank (all-whitespace) line. -/
def isBlankLine (l : List Char) : Bool := l.all jsWs

/-- The loop guard consuming the list block that follows a Must Do's
header (bulleted, numbered or checkbox items, or blank lines). -/
def isListOrBlank (l : List Char) : Bool :=
  isBulletLine l || isNumberedLine l || isCheckboxLine l || isBlankLine l

/-- Anchored-at-position part of `/\[\[\s*link\s*to\s*\]\]/i`. -/
def matchLinkToWiki (l : List Char) : Bool :=
  match l with
  | '[' :: '[' :: r =>
    match ciStarts "link".toList (r.dropWhile jsWs) with
    | none => false
    | some r1 =>
      match ciStarts "to".toList (r1.dropWhile jsWs) with
      | none => false
      | some r2 =>
        match r2.dropWhile jsWs with
        | ']' :: ']' :: _ => true
        | _ => false
  | _ => false

/-- `/\[\[\s*link\s*to\s*\]\]/i` — unanchored search over the line. -/
def containsLinkToWiki (l : List Char) : Bool :=
  l.tails.any matchLinkToWiki

/-- `/^\s*#{0,6}\s*link\s*to\b/i`. -/
def isLinkToHeading (l : List Char) : Bool :=
  let l1 := l.dropWhile jsWs
  let hs := l1.takeWhile (· = '#')
  if 6 < hs.length then false
  else
    let l2 := (l1.drop hs.length).dropWhile jsWs
    match ciStarts "link".toList l2 with
    | none => false
    | some r =>
      match ciStarts "to".toList (r.dropWhile jsWs) with
      | none => false
      | some r1 => !headIsWord r1

/-- `/^\s*#{0,6}\s*are\s*we\s*closer\b/i`. -/
def isAreWeCloser (l : List Char) : Bool :=
  let l1 := l.dropWhile jsWs
  let hs := l1.takeWhile (· = '#')
  if 6 < hs.length then false
  else
    let l2 := (l1.drop hs.length).dropWhile jsWs
    match ciStarts "are".toList l2 with
    | none => false
    | some r =>
      match ciStarts "we".toList (r.dropWhile jsWs) with
      | none => false
      | some r1 =>
        match ciStarts "closer".toList (r1.dropWhile jsWs) with
        | none => false
        | some r2 => !headIsWord r2

/-- Anchored-at-position part of `/\b100\s*days\b/i` (the leading word
boundary is checked by the caller). -/
def match100Days (l : List Char) : Bool :=
  match l with
  | '1' :: '0' :: '0' :: r =>
    match ciStarts "days".toList (r.dropWhile jsWs) with
    | none => false
    | some r1 => !headIsWord r1
  | _ => false

/-- Scanner for `/\b100\s*days\b/i`; the flag records whether the
previous character is a word character (for the leading `\b`). -/
def contains100DaysAux : Bool → List Char → Bool
  | _, [] => false
  | prevW, c :: r =>
    (!prevW && match100Days (c :: r)) || contains100DaysAux (isWordCharJs c) r

/-- `/\b100\s*days\b/i` — unanchored search over the line. -/
def contains100Days (l : List Char) : Bool := contains100DaysAux false l

/-- Disjunction of the four footer markers tested at
`sync-obsidian.js:141` / `clean.js:28`. -/
def isFooterLine (l : List Char) : Bool :=
  containsLinkToWiki l || isLinkToHeading l || isAreWeCloser l || contains100Days l

/-- `cleanJournalMarkdown` (sync-obsidian.js:122-147): strip the
"Must Do's" header block and everything from the first footer marker on,
collapse newline runs, trim, and append one trailing newline when
non-empty. -/
def cleanJournalMarkdown (text : List Char) : List Char :=
  let lines := splitNl text
  let startIdx :=
    match lines.findIdx? isMustDoLine with
    | some i => i + 1 + ((lines.drop (i + 1)).takeWhile isListOrBlank).length
    | none => 0
  let endIdx :=
    match (lines.drop startIdx).findIdx? isFooterLine with
    | some k => startIdx + k
    | none => lines.length
  let cleaned := trimJs (collapseNl (joinNl ((lines.take endIdx).drop startIdx)))
  if cleaned.isEmpty then [] else cleaned ++ ['\n']

/-- `cleanTopAndBottom` (clean.js:14-34): the clean-script copy of the
normalizer; same two-phase scan, same regexes. -/
def cleanTopAndBottom (markdown : List Char) : List Char :=
  let lines := splitNl markdown
  let startIdx :=
    match lines.findIdx? isMustDoLine with
    | some i => i + 1 + ((lines.drop (i + 1)).takeWhile isListOrBlank).length
    | none => 0
  let endIdx :=
    match (lines.drop startIdx).findIdx? isFooterLine with
    | some k => startIdx + k
    | none => lines.length
  let cleaned := trimJs (collapseNl (joinNl ((lines.take endIdx).drop startIdx)))
  if cleaned.isEmpty then [] else cleaned ++ ['\n']

example :
    cleanJournalMarkdown "## Must Do's\n- [ ] task\n\nBody text here.\n\n[[link to]]\nfooter junk".toList
      = "Body text here.\n".toList := by decide

/-! ## Tokenizer (`tokenizeForWordCount`, sync-obsidian.js:185-196)

The global regex replacements are embedded as left-to-right scanners.
Each scanner either replaces a match (resuming after it) or advances one
character, so it consumes at least one character per step; a structural
fuel argument equal to the input length makes them kernel-computable. -/

/-- The backtick character. -/
def btick : Char := Char.ofNat 96

/-- Find the first triple-backtick in the input and return what follows
it (the lazy `[\s\S]*?` of the fence regex stops at the first close). -/
def fenceClose : List Char → Option (List Char)
  | a :: b :: c :: r =>
    if a = btick && b = btick && c = btick then some r
    else fenceClose (b :: c :: r)
  | _ => none

/-- Try `/```[\s\S]*?```/` at the current position; on success return
the input remainder after the match. -/
def tryFence (l : List Char) : Option (List Char) :=
  match l with
  | a :: b :: c :: r =>
    if a = btick && b = btick && c = btick then fenceClose r else none
  | _ => none

/-- One global-replace pass of `/```[\s\S]*?```/g` with ' '. -/
def stripFencesAux : Nat → List Char → List Char
  | 0, l => l
  | _ + 1, [] => []
  | fuel + 1, c :: rest =>
    match tryFence (c :: rest) with
    | some r => ' ' :: stripFencesAux fuel r
    | none => c :: stripFencesAux fuel rest

/-- `.replace(/```[\s\S]*?```/g, ' ')`. -/
def stripFences (l : List Char) : List Char := stripFencesAux l.length l

/-- Find the first backtick and return what follows it. -/
def tickClose : List Char → Option (List Char)
  | [] => none
  | c :: rest => if c = btick then some rest else tickClose rest

/-- One global-replace pass of `/`[^`]*`/g` with ' ': at a backtick, the
match closes at the next backtick (`[^`]*` cannot cross one). -/
def stripInlineAux : Nat → List Char → List Char
  | 0, l => l
  | _ + 1, [] => []
  | fuel + 1, c :: rest =>
    if c = btick then
      match tickClose rest with
      | some r => ' ' :: stripInlineAux fuel r
      | none => c :: stripInlineAux fuel rest
    else c :: stripInlineAux fuel rest

/-- `.replace(/`[^`]*`/g, ' ')`. -/
def stripInline (l : List Char) : List Char := stripInlineAux l.length l

/-- Drop characters up to and including the first occurrence of `stop`;
`none` if absent. -/
def scanTo (stop : Char) (l : List Char) : Option (List Char) :=
  match l.dropWhile (fun c => c ≠ stop) with
  | _ :: r => some r
  | [] => none

/-- Try `/!\[[^\]]*\]\([^\)]*\)/` at the current position. -/
def tryImage : List Char → Option (List Char)
  | '!' :: '[' :: r =>
    match scanTo ']' r with
    | some ('(' :: r2) => scanTo ')' r2
    | _ => none
  | _ => none

/-- Try `/\[[^\]]*\]\([^\)]*\)/` at the current position. -/
def tryLink : List Char → Option (List Char)
  | '[' :: r =>
    match scanTo ']' r with
    | some ('(' :: r2) => scanTo ')' r2
    | _ => none
  | _ => none

/-- One global-replace pass of the image regex with ' '. -/
def stripImagesAux : Nat → List Char → List Char
  | 0, l => l
  | _ + 1, [] => []
  | fuel + 1, c :: rest =>
    match tryImage (c :: rest) with
    | some r => ' ' :: stripImagesAux fuel r
    | none => c :: stripImagesAux fuel rest

/-- `.replace(/!\[[^\]]*\]\([^\)]*\)/g, ' ')`. -/
def stripImages (l : List Char) : List Char := stripImagesAux l.length l

/-- One global-replace pass of the link regex with ' '. -/
def stripLinksAux : Nat → List Char → List Char
  | 0, l => l
  | _ + 1, [] => []
  | fuel + 1, c :: rest =>
    match tryLink (c :: rest) with
    | some r => ' ' :: stripLinksAux fuel r
    | none => c :: stripLinksAux fuel rest

/-- `.replace(/\[[^\]]*\]\([^\)]*\)/g, ' ')`. -/
def stripLinks (l : List Char) : List Char := stripLinksAux l.length l

/-- `.replace(/[’']/g, "'")`: typographic apostrophes become
straight ones. -/
def normApos (l : List Char) : List Char :=
  l.map (fun c => if c = Char.ofNat 8217 || c = '\'' then '\'' else c)

/-- Characters kept by `.replace(/[^a-zA-Z0-9\s']/g, ' ')`. -/
def isKeptChar (c : Char) : Bool :=
  ('a' ≤ c && c ≤ 'z') || ('A' ≤ c && c ≤ 'Z') || isDigitJs c || jsWs c || c = '\''

/-- `.replace(/[^a-zA-Z0-9\s']/g, ' ')`. -/
def punctToSpace (l : List Char) : List Char :=
  l.map (fun c => if isKeptChar c then c else ' ')

/-- `.toLowerCase()` (only ASCII letters remain at this point). -/
def toLowerJs (l : List Char) : List Char := l.map Char.toLower

/-- `.split(/\s+/).filter(Boolean)`: the maximal non-whitespace runs. -/
def fieldsWsAux : Nat → List Char → List (List Char)
  | 0, _ => []
  | _ + 1, [] => []
  | fuel + 1, c :: rest =>
    if jsWs c then fieldsWsAux fuel rest
    else
      (c :: rest).takeWhile (fun x => !jsWs x) ::
        fieldsWsAux fuel ((c :: rest).dropWhile (fun x => !jsWs x))

/-- Split on whitespace runs, discarding empty fragments. -/
def fieldsWs (l : List Char) : List (List Char) := fieldsWsAux l.length l

/-- `tokenizeForWordCount` (sync-obsidian.js:185-196): normalize, strip
code/images/links, normalize apostrophes, replace punctuation by spaces,
lowercase, split on whitespace. -/
def tokenizeForWordCount (text : List Char) : List (List Char) :=
  fieldsWs (toLowerJs (punctToSpace (normApos
    (stripLinks (stripImages (stripInline (stripFences
      (cleanJournalMarkdown text))))))))

/-- `STOPWORDS` (sync-obsidian.js:198-200), in source order (the source
lists 'own' twice; the duplicate does not affect membership). -/
def STOPWORDS : List (List Char) :=
  (["the", "a", "an", "and", "or", "but", "if", "then", "else", "when", "at",
    "by", "for", "in", "of", "on", "to", "up", "with", "is", "it", "as", "be",
    "can", "did", "do", "does", "doing", "done", "from", "had", "has", "have",
    "i", "me", "my", "we", "our", "you", "your", "he", "she", "they", "them",
    "their", "this", "that", "these", "those", "so", "not", "no", "yes",
    "just", "than", "too", "very", "are", "was", "were", "will", "would",
    "could", "should", "about", "after", "again", "against", "all", "am",
    "any", "because", "been", "before", "being", "between", "both", "into",
    "over", "under", "out", "off", "only", "own", "same", "some", "such",
    "own", "what", "which", "who", "whom", "why", "how", "there", "here",
    "where", "also"]).map String.toList

/-- `wordsWithoutStopwords` (sync-obsidian.js:202-204):
`tokens.filter(w => w.length > 1 && !STOPWORDS.has(w))`. -/
def wordsWithoutStopwords (tokens : List (List Char)) : List (List Char) :=
  tokens.filter (fun w => 1 < w.length && !(STOPWORDS.contains w))

example :
    wordsWithoutStopwords (tokenizeForWordCount "Hi, the cat-dog! 42".toList)
      = ["hi".toList, "cat".toList, "dog".toList, "42".toList] := by decide

/-! ## Exact numbers, JS `Map` and `Array.prototype.sort`

JS numbers reaching the variance ranking and the sparkline are modelled
as exact integer fractions.  Every fraction built by the pipeline has a
positive denominator (sums and products of positive denominators;
divisors are 1, a positive range, a positive length, or `max 1 (n-1)`),
so the cross-multiplied comparisons below agree with the rational order.

A JS `Map` is an insertion-ordered association list: `set` updates an
existing key in place and appends a fresh key.  `Array.prototype.sort`
with a consistent comparator is a stable sort, whose result is the
unique sorted stable permutation; `jsSort` is a stable insertion sort
and therefore extensionally equal to it. -/

structure Frac where
  num : Int
  den : Int
deriving DecidableEq, Repr

/-- Embed a JS integer value. -/
def natFrac (n : Nat) : Frac := ⟨n, 1⟩

def fadd (a b : Frac) : Frac := ⟨a.num * b.den + b.num * a.den, a.den * b.den⟩

def fsub (a b : Frac) : Frac := ⟨a.num * b.den - b.num * a.den, a.den * b.den⟩

def fmul (a b : Frac) : Frac := ⟨a.num * b.num, a.den * b.den⟩

def fdiv (a b : Frac) : Frac := ⟨a.num * b.den, a.den * b.num⟩

/-- `a <= b` as values (valid for positive denominators). -/
def fle (a b : Frac) : Bool := a.num * b.den ≤ b.num * a.den

/-- `a === b` as values (valid for positive denominators). -/
def feq (a b : Frac) : Bool := a.num * b.den = b.num * a.den

/-- `Math.max(a, b)`. -/
def fmax2 (a b : Frac) : Frac := if fle a b then b else a

/-- `Math.min(a, b)`. -/
def fmin2 (a b : Frac) : Frac := if fle b a then b else a

/-- `Math.max(...values)` over a non-empty list. -/
def listMax : List Frac → Frac
  | [] => natFrac 0
  | x :: xs => xs.foldl fmax2 x

/-- `Math.min(...values)` over a non-empty list. -/
def listMin : List Frac → Frac
  | [] => natFrac 0
  | x :: xs => xs.foldl fmin2 x

/-- JS `Map.get`. -/
def mapGet {κ ν : Type} [DecidableEq κ] : List (κ × ν) → κ → Option ν
  | [], _ => none
  | p :: rest, k => if p.1 = k then some p.2 else mapGet rest k

/-- JS `Map.set`: update in place, or append a fresh key. -/
def mapSet {κ ν : Type} [DecidableEq κ] : List (κ × ν) → κ → ν → List (κ × ν)
  | [], k, v => [(k, v)]
  | p :: rest, k, v => if p.1 = k then (k, v) :: rest else p :: mapSet rest k v

/-- Stable insertion step: `x` goes before the first `y` with `le x y`. -/
def jsSortInsert (le : α → α → Bool) (x : α) : List α → List α
  | [] => [x]
  | y :: ys => if le x y then x :: y :: ys else y :: jsSortInsert le x ys

/-- Stable sort by a boolean `le`; models `Array.prototype.sort` with
the comparator `c` where `le a b ⟺ c(a,b) <= 0`. -/
def jsSort (le : α → α → Bool) : List α → List α
  | [] => []
  | x :: xs => jsSortInsert le x (jsSort le xs)

/-- Lexicographic order on char lists; models `localeCompare` on the
zero-padded all-ASCII `YYYY-MM` keys it is applied to. -/
def lexLe : List Char → List Char → Bool
  | [], _ => true
  | _ :: _, [] => false
  | a :: as, b :: bs => if a = b then lexLe as bs else decide (a < b)

/-- `new Set(xs)` iteration order: first occurrences, in order. -/
def dedupFirst {α : Type} [DecidableEq α] : List α → List α
  | [] => []
  | a :: r => a :: (dedupFirst r).filter (fun b => b ≠ a)

/-- `Array.prototype.reduce((a,b)=>a+b, 0)` on a numeric array. -/
def natSum (l : List Nat) : Nat := l.foldl (· + ·) 0

/-! ## Entries and aggregation (sync-obsidian.js:206-236, 447-551) -/

/-- A journal entry as the stats pipeline sees it: the date fields
parsed from the filename and the (already once-normalized) markdown.
The `day` and `slug` fields are presentation-only and omitted. -/
structure Entry where
  year : Nat
  month : Nat
  markdown : List Char
deriving DecidableEq, Repr

/-- One decimal digit character. -/
def digitChar : Nat → Char
  | 0 => '0'
  | 1 => '1'
  | 2 => '2'
  | 3 => '3'
  | 4 => '4'
  | 5 => '5'
  | 6 => '6'
  | 7 => '7'
  | 8 => '8'
  | _ => '9'

/-- Decimal digits of a natural number, most significant first; the
structural fuel (any bound above the digit count) keeps it
kernel-computable. -/
def natDigitsAux : Nat → Nat → List Char
  | 0, _ => []
  | fuel + 1, n =>
    if n < 10 then [digitChar n]
    else natDigitsAux fuel (n / 10) ++ [digitChar (n % 10)]

/-- `String(n)` for a natural number. -/
def natDigits (n : Nat) : List Char := natDigitsAux (n + 1) n

/-- `String(month).padStart(2, '0')`. -/
def padStart2 (l : List Char) : List Char :=
  if l.length < 2 then List.replicate (2 - l.length) '0' ++ l else l

/-- The `` `${e.meta.year}-${String(e.meta.month).padStart(2,'0')}` ``
month key. -/
def ymKey (e : Entry) : List Char :=
  natDigits e.year ++ '-' :: padStart2 (natDigits e.month)

/-- The filtered token sequence of one entry, as computed at every use
site: `wordsWithoutStopwords(tokenizeForWordCount(e.markdown))`. -/
def tokensOf (e : Entry) : List (List Char) :=
  wordsWithoutStopwords (tokenizeForWordCount e.markdown)

/-- `getWordCountsPerEntry` (sync-obsidian.js:206-212), reduced to the
`(year, count)` fields the aggregator consumes. -/
def getWordCountsPerEntry (entries : List Entry) : List (Nat × Nat) :=
  entries.map (fun e => (e.year, (tokensOf e).length))

/-- The fold body of `aggregateCountsByYear`. -/
def aggStep (m : List (Nat × Nat)) (it : Nat × Nat) : List (Nat × Nat) :=
  mapSet m it.1 ((mapGet m it.1).getD 0 + it.2)

/-- `aggregateCountsByYear` (sync-obsidian.js:214-220): fold counts into
a year-keyed map, then sort entries ascending by year. -/
def aggregateCountsByYear (items : List (Nat × Nat)) : List (Nat × Nat) :=
  jsSort (fun a b => a.1 ≤ b.1) (items.foldl aggStep [])

/-- Joint state of `buildWordFrequency`: the overall table and the
per-year table of inner maps. -/
def BwfState : Type := List (List Char × Nat) × List (Nat × List (List Char × Nat))

/-- The per-token body of `buildWordFrequency`'s loop
(sync-obsidian.js:227-233): bump the overall count, create the year's
inner map if missing, bump the inner count. -/
def bwfToken (y : Nat) (acc : BwfState) (w : List Char) : BwfState :=
  let ov := mapSet acc.1 w ((mapGet acc.1 w).getD 0 + 1)
  let py0 := if (mapGet acc.2 y).isSome then acc.2 else mapSet acc.2 y []
  let ym := (mapGet py0 y).getD []
  (ov, mapSet py0 y (mapSet ym w ((mapGet ym w).getD 0 + 1)))

/-- The per-entry body of `buildWordFrequency`'s loop. -/
def bwfEntry (acc : BwfState) (e : Entry) : BwfState :=
  (tokensOf e).foldl (bwfToken e.year) acc

/-- `buildWordFrequency` (sync-obsidian.js:222-236): one pass over all
entries' tokens, incrementing the overall table and the per-year table. -/
def buildWordFrequency (entries : List Entry) : BwfState :=
  entries.foldl bwfEntry ([], [])

/-- The fold body of the per-month totals loop. -/
def pmStep (m : List (List Char × Nat)) (e : Entry) : List (List Char × Nat) :=
  mapSet m (ymKey e) ((mapGet m (ymKey e)).getD 0 + (tokensOf e).length)

/-- The monthly word-count totals of `statsPage` (sync-obsidian.js:
463-472): fold per-entry counts into a `YYYY-MM`-keyed map, then sort
by key. -/
def perMonthPairs (entries : List Entry) : List (List Char × Nat) :=
  jsSort (fun a b => lexLe a.1 b.1) (entries.foldl pmStep [])

/-- `monthlyOrder` (sync-obsidian.js:487): sorted distinct month keys. -/
def monthlyOrder (entries : List Entry) : List (List Char) :=
  jsSort lexLe (dedupFirst (entries.map ymKey))

/-- `arr[i]++` on a dense counter array. -/
def bumpAt (arr : List Nat) (i : Nat) : List Nat :=
  arr.set i (arr.getD i 0 + 1)

/-- The per-token body of the `perWordMonthCounts` loop
(sync-obsidian.js:493-497): fetch (or create, zero-filled) the word's
counter array and bump the entry's month slot. -/
def pwmcToken (order : List (List Char)) (ym : List Char)
    (m : List (List Char × List Nat)) (w : List Char) : List (List Char × List Nat) :=
  mapSet m w
    (bumpAt ((mapGet m w).getD (List.replicate order.length 0)) (order.indexOf ym))

/-- The per-entry body of the `perWordMonthCounts` loop. -/
def pwmcEntry (order : List (List Char)) (m : List (List Char × List Nat))
    (e : Entry) : List (List Char × List Nat) :=
  (tokensOf e).foldl (pwmcToken order (ymKey e)) m

/-- `perWordMonthCounts` (sync-obsidian.js:489-498): per word, a counter
array aligned to `monthlyOrder`, bumped at the entry's month index. -/
def perWordMonthCounts (entries : List Entry) : List (List Char × List Nat) :=
  entries.foldl (pwmcEntry (monthlyOrder entries)) []

/-- `variance` (sync-obsidian.js:499-504): population variance. -/
def variance (arr : List Frac) : Frac :=
  if arr.length = 0 then natFrac 0
  else
    let mean := fdiv (arr.foldl fadd (natFrac 0)) (natFrac arr.length)
    fdiv (arr.foldl (fun s x => fadd s (fmul (fsub x mean) (fsub x mean))) (natFrac 0))
      (natFrac arr.length)

/-- `wordsGte10` before sorting (sync-obsidian.js:505-506): keep words
whose full-series total is at least 10, then drop the first month. -/
def wordsGte10 (entries : List Entry) : List (List Char × List Nat) :=
  ((perWordMonthCounts entries).filter (fun p => 10 ≤ natSum p.2)).map
    (fun p => (p.1, p.2.drop 1))

/-- `wordsGte10` after the in-place variance sort
(sync-obsidian.js:507). -/
def wordsGte10Sorted (entries : List Entry) : List (List Char × List Nat) :=
  jsSort (fun a b => fle (variance (b.2.map natFrac)) (variance (a.2.map natFrac)))
    (wordsGte10 entries)

/-- One row of the hottest-words ranking (sync-obsidian.js:530-534). -/
structure HotEntry where
  word : List Char
  recent : Nat
  prev : Nat
  delta : Int
  series : List Nat
deriving DecidableEq, Repr

/-- `windowN` (sync-obsidian.js:524):
`Math.min(3, Math.max(1, monthlyOrder.length >> 3) || 3)`. -/
def windowN (entries : List Entry) : Nat :=
  let t := Nat.max 1 ((monthlyOrder entries).length >>> 3)
  Nat.min 3 (if t = 0 then 3 else t)

/-- The per-word body of the hottest-words map (sync-obsidian.js:
530-535): `recent`/`prev` window sums over the (first-month-dropped)
series and their delta.  `Nat` subtraction models the `Math.max(0, ...)`
clamps in the `slice` arguments. -/
def mkHot (wN : Nat) (havePrev : Bool) (p : List Char × List Nat) : HotEntry :=
  let series := p.2
  let recent := natSum (series.drop (series.length - wN))
  let prev := if havePrev then
      natSum ((series.take (series.length - wN)).drop (series.length - 2 * wN))
    else 0
  ⟨p.1, recent, prev, (recent : Int) - (prev : Int), series⟩

/-- `havePrev` (sync-obsidian.js:526-528): with
`prevStart = Math.max(0, end - 2*windowN)`, whether
`end - prevStart >= 2 * windowN`. -/
def havePrevB (entries : List Entry) : Bool :=
  let wN := windowN entries
  let endN := (monthlyOrder entries).length
  let prevStart := endN - 2 * wN
  decide (2 * wN ≤ endN - prevStart)

/-- The hottest-words list before the 50-entry cap
(sync-obsidian.js:529-537): keep positive deltas and sort descending by
delta. -/
def hottestPre (entries : List Entry) : List HotEntry :=
  jsSort (fun a b => b.delta ≤ a.delta)
    (((wordsGte10Sorted entries).map (mkHot (windowN entries) (havePrevB entries))).filter
      (fun h => 0 < h.delta))

/-- `hottest` (sync-obsidian.js:529-538): the capped ranking. -/
def hottest (entries : List Entry) : List HotEntry :=
  (hottestPre entries).take 50

/-! ## Sparkline renderer (`renderSparkline`, sync-obsidian.js:238-256) -/

structure SparkOpts where
  width : Frac
  height : Frac
  stroke : List Char
deriving Repr

/-- The default options `{ width = 280, height = 60, stroke = '#fff' }`. -/
def sparkDefaults : SparkOpts := ⟨natFrac 280, natFrac 60, "#fff".toList⟩

/-- The fixed padding `pad = 6`. -/
def sparkPad : Frac := natFrac 6

def mapIdxAux (f : Nat → α → β) : Nat → List α → List β
  | _, [] => []
  | i, a :: as => f i a :: mapIdxAux f (i + 1) as

/-- `Array.prototype.map((v, i) => ...)`. -/
def mapWithIdx (f : Nat → α → β) (l : List α) : List β := mapIdxAux f 0 l

/-- The `[x, y]` point list of `renderSparkline`:
`x = pad + (i * (W - 2*pad)) / Math.max(1, n - 1)`,
`y = H - pad - ((v - min) * (H - 2*pad)) / range` with the range forced
to 1 when `max === min`. -/
def renderSparklinePoints (values : List Frac) (o : SparkOpts) : List (Frac × Frac) :=
  let n := values.length
  let max := listMax values
  let min := listMin values
  let range := if feq max min then natFrac 1 else fsub max min
  mapWithIdx
    (fun i v =>
      (fadd sparkPad
        (fdiv (fmul (natFrac i) (fsub o.width (fmul (natFrac 2) sparkPad)))
          (natFrac (Nat.max 1 (n - 1)))),
       fsub (fsub o.height sparkPad)
        (fdiv (fmul (fsub v min) (fsub o.height (fmul (natFrac 2) sparkPad))) range)))
    values

/-- Two-decimal fraction part padding. -/
def pad2Digits (n : Nat) : List Char :=
  if n < 10 then '0' :: natDigits n else natDigits n

/-- `Number.prototype.toFixed(2)`: round to the nearest hundredth,
ties toward positive infinity (ECMA picks the larger candidate). -/
def fmt2 (q : Frac) : List Char :=
  let r : Int := Int.ediv (q.num * 200 + q.den) (2 * q.den)
  let m := r.natAbs
  (if r < 0 then ['-'] else []) ++ natDigits (m / 100) ++ '.' :: pad2Digits (m % 100)

/-- `Array.prototype.join(' ')`. -/
def joinSp : List (List Char) → List Char
  | [] => []
  | [x] => x
  | x :: xs => x ++ ' ' :: joinSp xs

/-- The `d` attribute: `M`/`L` commands with two-decimal coordinates. -/
def sparklineD (values : List Frac) (o : SparkOpts) : List Char :=
  joinSp (mapWithIdx
    (fun i p => (if i = 0 then ['M'] else ['L']) ++ fmt2 p.1 ++ ',' :: fmt2 p.2)
    (renderSparklinePoints values o))

/-- JS number-to-string for the integer-valued geometry attributes. -/
def fmtNum (q : Frac) : List Char :=
  if q.num % q.den = 0 then
    let v := Int.ediv q.num q.den
    (if v < 0 then ['-'] else []) ++ natDigits v.natAbs
  else fmt2 q

/-- `renderSparkline` (sync-obsidian.js:238-256): empty input yields the
empty string, otherwise the `<svg>` wrapper around the path. -/
def renderSparkline (values : List Frac) (o : SparkOpts) : List Char :=
  if values.length = 0 then []
  else
    "<svg width=\"".toList ++ fmtNum o.width ++ "\" height=\"".toList ++ fmtNum o.height ++
    "\" viewBox=\"0 0 ".toList ++ fmtNum o.width ++ ' ' :: fmtNum o.height ++
    "\" xmlns=\"http://www.w3.org/2000/svg\" class=\"sparkline\">\n    <path d=\"".toList ++
    sparklineD values o ++
    "\" fill=\"none\" stroke=\"".toList ++ o.stroke ++
    "\" stroke-width=\"2\" />\n  </svg>".toList

example :
    sparklineD [natFrac 5, natFrac 5] sparkDefaults
      = "M6.00,54.00 L274.00,54.00".toList := by decide

example :
    aggregateCountsByYear [(2023, 3), (2022, 1), (2023, 4)] = [(2022, 1), (2023, 7)] := by
  decide

/-! ## Concrete demonstration inputs -/

/-- `n` copies of a word, space-separated. -/
def repeatWord (w : List Char) (n : Nat) : List Char :=
  joinSp (List.replicate n w)

/-- Two months; "zebra" occurs 10 times but only in the first month. -/
def demoA : List Entry :=
  [⟨2023, 1, repeatWord "zebra".toList 10⟩, ⟨2023, 2, "apple apple".toList⟩]

/-- Two months; "zebra" occurs 5 then 6 times. -/
def demoB : List Entry :=
  [⟨2023, 1, repeatWord "zebra".toList 5⟩, ⟨2023, 2, repeatWord "zebra".toList 6⟩]

example : wordsGte10 demoA = [("zebra".toList, [0])] := by decide

example : hottest demoB = [⟨"zebra".toList, 6, 0, 6, [6]⟩] := by decide

example : mapGet (perWordMonthCounts demoB) "zebra".toList = some [5, 6] := by decide

example : mapGet (buildWordFrequency demoB).1 "zebra".toList = some 11 := by decide

example : perMonthPairs demoA = [("2023-01".toList, 10), ("2023-02".toList, 2)] := by decide

/-! ## Association-map lemmas -/

section MapLemmas

variable {κ ν : Type} [DecidableEq κ]

theorem mapGet_mapSet_self (m : List (κ × ν)) (k : κ) (v : ν) :
    mapGet (mapSet m k v) k = some v := by
  induction m with
  | nil => simp [mapSet, mapGet]
  | cons p rest ih =>
    by_cases h : p.1 = k
    · simp [mapSet, h, mapGet]
    · simp [mapSet, h, mapGet, ih]

theorem mapGet_mapSet_ne (m : List (κ × ν)) (k k' : κ) (v : ν) (h : k' ≠ k) :
    mapGet (mapSet m k v) k' = mapGet m k' := by
  have hkk : ¬(k = k') := fun hh => h hh.symm
  induction m with
  | nil => simp [mapSet, mapGet, hkk]
  | cons p rest ih =>
    by_cases hp : p.1 = k
    · subst hp
      simp [mapSet, mapGet, hkk]
    · simp only [mapSet, hp, if_false]
      by_cases hp' : p.1 = k'
      · simp [mapGet, hp']
      · simp [mapGet, hp', ih]

theorem keys_mapSet (m : List (κ × ν)) (k : κ) (v : ν) :
    (mapSet m k v).map Prod.fst =
      if k ∈ m.map Prod.fst then m.map Prod.fst else m.map Prod.fst ++ [k] := by
  induction m with
  | nil => simp [mapSet]
  | cons p rest ih =>
    by_cases h : p.1 = k
    · simp [mapSet, h]
    · have hne : ¬(k = p.1) := fun hh => h hh.symm
      simp only [mapSet, h, if_false, List.map_cons, ih, List.mem_cons, hne, false_or]
      by_cases hm : k ∈ rest.map Prod.fst <;> simp [hm]

theorem mapGet_eq_none_iff (m : List (κ × ν)) (k : κ) :
    mapGet m k = none ↔ k ∉ m.map Prod.fst := by
  induction m with
  | nil => simp [mapGet]
  | cons p rest ih =>
    by_cases h : p.1 = k
    · simp [mapGet, h]
    · have hne : ¬(k = p.1) := fun hh => h hh.symm
      simp [mapGet, h, ih, hne]

theorem mapGet_isSome_iff (m : List (κ × ν)) (k : κ) :
    (mapGet m k).isSome = true ↔ k ∈ m.map Prod.fst := by
  cases hm : mapGet m k with
  | none =>
    simp only [Option.isSome_none]
    simpa using (mapGet_eq_none_iff m k).1 hm
  | some v =>
    simp only [Option.isSome_some, true_iff]
    by_contra hmem
    rw [← mapGet_eq_none_iff] at hmem
    rw [hm] at hmem
    exact Option.noConfusion hmem

theorem nodupKeys_mapSet (m : List (κ × ν)) (k : κ) (v : ν)
    (h : (m.map Prod.fst).Nodup) : ((mapSet m k v).map Prod.fst).Nodup := by
  rw [keys_mapSet]
  by_cases hm : k ∈ m.map Prod.fst
  · simpa [hm] using h
  · rw [if_neg hm, List.nodup_append]
    refine ⟨h, List.nodup_singleton k, ?_⟩
    intro a ha hak
    rcases List.mem_singleton.1 hak with rfl
    exact hm ha

theorem mem_of_mapGet_eq_some {m : List (κ × ν)} {k : κ} {v : ν}
    (h : mapGet m k = some v) : (k, v) ∈ m := by
  induction m with
  | nil => simp [mapGet] at h
  | cons p rest ih =>
    by_cases hp : p.1 = k
    · simp only [mapGet, hp, if_true, Option.some.injEq] at h
      exact List.mem_cons.2 (Or.inl (by rw [← h, ← hp]))
    · simp only [mapGet, hp, if_false] at h
      exact List.mem_cons_of_mem _ (ih h)

theorem mapGet_eq_some_of_mem {m : List (κ × ν)} {k : κ} {v : ν}
    (hn : (m.map Prod.fst).Nodup) (h : (k, v) ∈ m) : mapGet m k = some v := by
  induction m with
  | nil => simp at h
  | cons p rest ih =>
    rcases List.mem_cons.1 h with h1 | h1
    · simp [← h1, mapGet]
    · have hk : k ∈ rest.map Prod.fst := List.mem_map_of_mem Prod.fst h1
      have hp : p.1 ≠ k := by
        rintro rfl
        exact (List.nodup_cons.1 (by simpa using hn)).1 hk
      simp only [mapGet, hp, if_false]
      exact ih (List.nodup_cons.1 (by simpa using hn)).2 h1

theorem mapGet_eq_some_iff_mem {m : List (κ × ν)} {k : κ} {v : ν}
    (hn : (m.map Prod.fst).Nodup) : mapGet m k = some v ↔ (k, v) ∈ m :=
  ⟨mem_of_mapGet_eq_some, mapGet_eq_some_of_mem hn⟩

end MapLemmas

/-! ## Stable-sort lemmas -/

section SortLemmas

variable {α : Type} (le : α → α → Bool)

theorem jsSortInsert_perm (x : α) (l : List α) :
    List.Perm (jsSortInsert le x l) (x :: l) := by
  induction l with
  | nil => rfl
  | cons y ys ih =>
    by_cases h : le x y
    · simp [jsSortInsert, h]
    · simp only [jsSortInsert, h, if_false]
      exact ((ih.cons y).trans (List.Perm.swap x y ys))

theorem jsSort_perm (l : List α) : List.Perm (jsSort le l) l := by
  induction l with
  | nil => rfl
  | cons x xs ih =>
    exact (jsSortInsert_perm le x (jsSort le xs)).trans (ih.cons x)

theorem mem_jsSort {x : α} {l : List α} : x ∈ jsSort le l ↔ x ∈ l :=
  (jsSort_perm le l).mem_iff

theorem pairwise_jsSortInsert
    (total : ∀ a b, le a b || le b a)
    (trans : ∀ a b c, le a b → le b c → le a c)
    (x : α) (l : List α) (h : l.Pairwise (fun a b => le a b))
    : (jsSortInsert le x l).Pairwise (fun a b => le a b) := by
  induction l with
  | nil => simp [jsSortInsert]
  | cons y ys ih =>
    by_cases hxy : le x y
    · simp only [jsSortInsert, hxy, if_true]
      refine List.pairwise_cons.2 ⟨?_, h⟩
      intro z hz
      rcases List.mem_cons.1 hz with rfl | hz'
      · exact hxy
      · exact trans x y z hxy ((List.pairwise_cons.1 h).1 z hz')
    · simp only [jsSortInsert, hxy, if_false]
      have hyx : le y x := by
        rcases Bool.or_eq_true_iff.1 (total x y) with h1 | h1
        · exact absurd h1 hxy
        · exact h1
      refine List.pairwise_cons.2 ⟨?_, ih (List.pairwise_cons.1 h).2⟩
      intro z hz
      rcases List.mem_cons.1 ((jsSortInsert_perm le x ys).mem_iff.1 hz) with rfl | hz'
      · exact hyx
      · exact (List.pairwise_cons.1 h).1 z hz'

theorem pairwise_jsSort
    (total : ∀ a b, le a b || le b a)
    (trans : ∀ a b c, le a b → le b c → le a c)
    (l : List α) : (jsSort le l).Pairwise (fun a b => le a b) := by
  induction l with
  | nil => simp [jsSort]
  | cons x xs ih => exact pairwise_jsSortInsert le total trans x _ ih

end SortLemmas

/-! ## Lexicographic order on char lists -/

theorem lexLe_refl (a : List Char) : lexLe a a := by
  induction a with
  | nil => rfl
  | cons c cs ih => simp [lexLe, ih]

theorem lexLe_total (a b : List Char) : lexLe a b || lexLe b a := by
  induction a generalizing b with
  | nil => simp [lexLe]
  | cons c cs ih =>
    cases b with
    | nil => simp [lexLe]
    | cons d ds =>
      by_cases h : c = d
      · subst h
        simpa [lexLe] using ih ds
      · have h' : d ≠ c := fun hh => h hh.symm
        rcases lt_or_gt_of_ne (show c ≠ d from h) with hlt | hgt
        · simp [lexLe, h, h', hlt]
        · simp [lexLe, h, h', hgt, not_lt_of_gt hgt]

theorem lexLe_trans (a b c : List Char) (h1 : lexLe a b) (h2 : lexLe b c) :
    lexLe a c := by
  induction a generalizing b c with
  | nil => rfl
  | cons x xs ih =>
    cases b with
    | nil => simp [lexLe] at h1
    | cons y ys =>
      cases c with
      | nil => simp [lexLe] at h2
      | cons z zs =>
        by_cases hxy : x = y
        · subst hxy
          by_cases hyz : x = z
          · subst hyz
            simp only [lexLe, if_true] at h1 h2 ⊢
            exact ih ys zs (by simpa using h1) (by simpa using h2)
          · simp only [lexLe, hyz, if_true, if_false] at h2 ⊢
            simpa [lexLe, hyz] using h2
        · simp only [lexLe, hxy, if_false] at h1
          by_cases hyz : y = z
          · subst hyz
            simp [lexLe, hxy, h1]
          · simp only [lexLe, hyz, if_false] at h2
            have : x < z := lt_trans (of_decide_eq_true h1) (of_decide_eq_true h2)
            have hxz : x ≠ z := ne_of_lt this
            simp [lexLe, hxz, this]

theorem lexLe_antisymm (a b : List Char) (h1 : lexLe a b) (h2 : lexLe b a) :
    a = b := by
  induction a generalizing b with
  | nil =>
    cases b with
    | nil => rfl
    | cons y ys => simp [lexLe] at h2
  | cons x xs ih =>
    cases b with
    | nil => simp [lexLe] at h1
    | cons y ys =>
      by_cases hxy : x = y
      · subst hxy
        simp only [lexLe, if_true] at h1 h2
        rw [ih ys (by simpa using h1) (by simpa using h2)]
      · have hyx : y ≠ x := fun hh => hxy hh.symm
        simp only [lexLe, hxy, hyx, if_false] at h1 h2
        exact absurd (of_decide_eq_true h2) (not_lt_of_gt (of_decide_eq_true h1))

/-! ## Fraction order lemmas (positive denominators) -/

theorem fle_refl (a : Frac) : fle a a = true := by simp [fle]

theorem fle_total (a b : Frac) : (fle a b || fle b a) = true := by
  simp only [fle, Bool.or_eq_true, decide_eq_true_eq]
  exact Int.le_total _ _

theorem feq_symm (a b : Frac) : feq a b = feq b a := by
  unfold feq
  exact decide_eq_decide.mpr ⟨fun h => h.symm, fun h => h.symm⟩

theorem feq_to_fle {a b : Frac} (h : feq a b = true) : fle a b = true ∧ fle b a = true := by
  simp only [feq, decide_eq_true_eq] at h
  simp only [fle, decide_eq_true_eq]
  omega

theorem fle_antisymm_feq {a b : Frac} (h1 : fle a b = true) (h2 : fle b a = true) :
    feq a b = true := by
  simp only [fle, decide_eq_true_eq] at h1 h2
  simp only [feq, decide_eq_true_eq]
  omega

theorem fle_trans_pos {a b c : Frac} (ha : 0 < a.den) (hb : 0 < b.den) (hc : 0 < c.den)
    (h1 : fle a b = true) (h2 : fle b c = true) : fle a c = true := by
  simp only [fle, decide_eq_true_eq] at h1 h2 ⊢
  have h1' := mul_le_mul_of_nonneg_right h1 (le_of_lt hc)
  have h2' := mul_le_mul_of_nonneg_right h2 (le_of_lt ha)
  have hchain : a.num * c.den * b.den ≤ c.num * a.den * b.den := by nlinarith
  exact le_of_mul_le_mul_right hchain hb

theorem foldl_fmin2_mem (t : List Frac) (a : Frac) : t.foldl fmin2 a ∈ a :: t := by
  induction t generalizing a with
  | nil => simp
  | cons h t' ih =>
    simp only [List.foldl_cons]
    have hm : fmin2 a h = h ∨ fmin2 a h = a := by
      unfold fmin2
      by_cases hc : fle h a = true <;> simp [hc]
    have hmem := ih (fmin2 a h)
    rcases List.mem_cons.1 hmem with h1 | h1
    · rw [h1]
      rcases hm with h2 | h2 <;> rw [h2] <;> simp
    · exact List.mem_cons_of_mem _ (List.mem_cons_of_mem _ h1)

theorem foldl_fmax2_mem (t : List Frac) (a : Frac) : t.foldl fmax2 a ∈ a :: t := by
  induction t generalizing a with
  | nil => simp
  | cons h t' ih =>
    simp only [List.foldl_cons]
    have hm : fmax2 a h = h ∨ fmax2 a h = a := by
      unfold fmax2
      by_cases hc : fle a h = true <;> simp [hc]
    have hmem := ih (fmax2 a h)
    rcases List.mem_cons.1 hmem with h1 | h1
    · rw [h1]
      rcases hm with h2 | h2 <;> rw [h2] <;> simp
    · exact List.mem_cons_of_mem _ (List.mem_cons_of_mem _ h1)

theorem listMin_mem {l : List Frac} (h : l ≠ []) : listMin l ∈ l := by
  cases l with
  | nil => exact absurd rfl h
  | cons x xs => exact foldl_fmin2_mem xs x

theorem listMax_mem {l : List Frac} (h : l ≠ []) : listMax l ∈ l := by
  cases l with
  | nil => exact absurd rfl h
  | cons x xs => exact foldl_fmax2_mem xs x

theorem foldl_fmin2_le (t : List Frac) (a : Frac)
    (hpos : ∀ v ∈ a :: t, 0 < v.den) :
    ∀ x ∈ a :: t, fle (t.foldl fmin2 a) x = true := by
  induction t generalizing a with
  | nil =>
    intro x hx
    rcases List.mem_cons.1 hx with rfl | hx'
    · exact fle_refl x
    · simp at hx'
  | cons h t' ih =>
    have had : 0 < a.den := hpos a (by simp)
    have hhd : 0 < h.den := hpos h (by simp)
    simp only [List.foldl_cons]
    by_cases hc : fle h a = true
    · have h2 : fmin2 a h = h := by unfold fmin2; simp [hc]
      rw [h2]
      have hposm : ∀ v ∈ h :: t', 0 < v.den := by
        intro v hv
        rcases List.mem_cons.1 hv with rfl | hv'
        · exact hhd
        · exact hpos v (by simp [hv'])
      have ihm := ih h hposm
      have hMden : 0 < (t'.foldl fmin2 h).den := hposm _ (foldl_fmin2_mem t' h)
      intro x hx
      rcases List.mem_cons.1 hx with rfl | hx'
      · exact fle_trans_pos hMden hhd had (ihm h (by simp)) hc
      · exact ihm x hx'
    · have h2 : fmin2 a h = a := by unfold fmin2; simp [hc]
      rw [h2]
      have hah : fle a h = true := by
        rcases Bool.or_eq_true_iff.1 (fle_total h a) with hh | hh
        · exact absurd hh hc
        · exact hh
      have hposm : ∀ v ∈ a :: t', 0 < v.den := by
        intro v hv
        rcases List.mem_cons.1 hv with rfl | hv'
        · exact had
        · exact hpos v (by simp [hv'])
      have ihm := ih a hposm
      have hMden : 0 < (t'.foldl fmin2 a).den := hposm _ (foldl_fmin2_mem t' a)
      intro x hx
      rcases List.mem_cons.1 hx with rfl | hx'
      · exact ihm x (by simp)
      · rcases List.mem_cons.1 hx' with rfl | hx''
        · exact fle_trans_pos hMden had (hpos x (by simp)) (ihm a (by simp)) hah
        · exact ihm x (by simp [hx''])

theorem foldl_fmax2_ge (t : List Frac) (a : Frac)
    (hpos : ∀ v ∈ a :: t, 0 < v.den) :
    ∀ x ∈ a :: t, fle x (t.foldl fmax2 a) = true := by
  induction t generalizing a with
  | nil =>
    intro x hx
    rcases List.mem_cons.1 hx with rfl | hx'
    · exact fle_refl x
    · simp at hx'
  | cons h t' ih =>
    have had : 0 < a.den := hpos a (by simp)
    have hhd : 0 < h.den := hpos h (by simp)
    simp only [List.foldl_cons]
    by_cases hc : fle a h = true
    · have h2 : fmax2 a h = h := by unfold fmax2; simp [hc]
      rw [h2]
      have hposm : ∀ v ∈ h :: t', 0 < v.den := by
        intro v hv
        rcases List.mem_cons.1 hv with rfl | hv'
        · exact hhd
        · exact hpos v (by simp [hv'])
      have ihm := ih h hposm
      have hMden : 0 < (t'.foldl fmax2 h).den := hposm _ (foldl_fmax2_mem t' h)
      intro x hx
      rcases List.mem_cons.1 hx with rfl | hx'
      · exact fle_trans_pos had hhd hMden hc (ihm h (by simp))
      · exact ihm x hx'
    · have h2 : fmax2 a h = a := by unfold fmax2; simp [hc]
      rw [h2]
      have hha : fle h a = true := by
        rcases Bool.or_eq_true_iff.1 (fle_total a h) with hh | hh
        · exact absurd hh hc
        · exact hh
      have hposm : ∀ v ∈ a :: t', 0 < v.den := by
        intro v hv
        rcases List.mem_cons.1 hv with rfl | hv'
        · exact had
        · exact hpos v (by simp [hv'])
      have ihm := ih a hposm
      have hMden : 0 < (t'.foldl fmax2 a).den := hposm _ (foldl_fmax2_mem t' a)
      intro x hx
      rcases List.mem_cons.1 hx with rfl | hx'
      · exact ihm x (by simp)
      · rcases List.mem_cons.1 hx' with rfl | hx''
        · exact fle_trans_pos (hpos x (by simp)) had hMden hha (ihm a (by simp))
        · exact ihm x (by simp [hx''])

theorem listMin_le {l : List Frac} (hpos : ∀ v ∈ l, 0 < v.den) :
    ∀ x ∈ l, fle (listMin l) x = true := by
  cases l with
  | nil => intro x hx; simp at hx
  | cons a t => exact foldl_fmin2_le t a hpos

theorem listMax_ge {l : List Frac} (hpos : ∀ v ∈ l, 0 < v.den) :
    ∀ x ∈ l, fle x (listMax l) = true := by
  cases l with
  | nil => intro x hx; simp at hx
  | cons a t => exact foldl_fmax2_ge t a hpos

theorem mem_mapIdxAux {α β : Type} (f : Nat → α → β) :
    ∀ (l : List α) (i : Nat) (b : β), b ∈ mapIdxAux f i l → ∃ j a, a ∈ l ∧ b = f j a := by
  intro l
  induction l with
  | nil => intro i b hb; simp [mapIdxAux] at hb
  | cons x xs ih =>
    intro i b hb
    rcases List.mem_cons.1 hb with h1 | h1
    · exact ⟨i, x, by simp, h1⟩
    · obtain ⟨j, a, ha, hba⟩ := ih (i + 1) b h1
      exact ⟨j, a, List.mem_cons_of_mem _ ha, hba⟩

theorem mem_mapWithIdx {α β : Type} (f : Nat → α → β) (l : List α) (b : β)
    (hb : b ∈ mapWithIdx f l) : ∃ j a, a ∈ l ∧ b = f j a :=
  mem_mapIdxAux f l 0 b hb

theorem feq_fsub_zero_num (a b : Frac) (h : b.num = 0) : feq (fsub a b) a = true := by
  simp only [feq, fsub, h, decide_eq_true_eq]
  ring

theorem feq_fadd_zero_num (a b : Frac) (h : b.num = 0) : feq (fadd a b) a = true := by
  simp only [feq, fadd, h, decide_eq_true_eq]
  ring

/-- Count of path commands (`M`/`L`) in a string. -/
def countCmds (l : List Char) : Nat := l.countP (fun c => c = 'M' || c = 'L')

theorem digitChar_not_cmd (d : Nat) (h : d < 10) :
    ((digitChar d = 'M' || digitChar d = 'L') : Bool) = false := by
  interval_cases d <;> decide

theorem countCmds_natDigitsAux (fuel : Nat) : ∀ n, countCmds (natDigitsAux fuel n) = 0 := by
  induction fuel with
  | zero => intro n; rfl
  | succ fuel ih =>
    intro n
    by_cases h : n < 10
    · simp [natDigitsAux, h, countCmds, List.countP_cons,
        digitChar_not_cmd n h]
    · have h10 : n % 10 < 10 := Nat.mod_lt n (by omega)
      simp only [natDigitsAux, h, if_false, countCmds, List.countP_append]
      have := ih (n / 10)
      simp only [countCmds] at this
      simp [this, List.countP_cons, digitChar_not_cmd _ h10]

theorem countCmds_natDigits (n : Nat) : countCmds (natDigits n) = 0 :=
  countCmds_natDigitsAux (n + 1) n

theorem countCmds_pad2Digits (n : Nat) : countCmds (pad2Digits n) = 0 := by
  unfold pad2Digits
  by_cases h : n < 10
  · simp only [h, if_true, countCmds, List.countP_cons]
    have := countCmds_natDigits n
    simp only [countCmds] at this
    simp [this]
  · simp only [h, if_false]
    exact countCmds_natDigits n

theorem countCmds_fmt2 (q : Frac) : countCmds (fmt2 q) = 0 := by
  unfold fmt2
  simp only [countCmds, List.countP_append, List.countP_cons]
  have h1 := countCmds_natDigits ((Int.ediv (q.num * 200 + q.den) (2 * q.den)).natAbs / 100)
  have h2 := countCmds_pad2Digits ((Int.ediv (q.num * 200 + q.den) (2 * q.den)).natAbs % 100)
  simp only [countCmds] at h1 h2
  by_cases hneg : Int.ediv (q.num * 200 + q.den) (2 * q.den) < 0 <;>
    simp [hneg, h1, h2, List.countP_cons]

/-! ## Claim theorems -/

/-- C4: the boilerplate normalizer maps the spec's example input
`"## Must Do's\n- [ ] task\n\nBody text here.\n\n[[link to]]\nfooter junk"`
to exactly `"Body text here.\n"`: the Must Do's marker line and the
following list/blank lines are skipped, everything from the
`[[link to]]` line on is dropped, the result is trimmed and gets one
trailing newline. -/
theorem cleanJournalMarkdown_spec_example :
    cleanJournalMarkdown
        ("## Must Do's\n- [ ] task\n\nBody text here.\n\n[[link to]]\nfooter junk".toList)
      = "Body text here.\n".toList := by decide

/-- C10: the clean-script normalizer `cleanTopAndBottom` and the build
script normalizer `cleanJournalMarkdown` are extensionally equal — the
two sources implement the identical two-phase scan with the identical
regexes, so the embedded functions agree on every input. -/
theorem cleanTopAndBottom_eq_cleanJournalMarkdown :
    ∀ t : List Char, cleanTopAndBottom t = cleanJournalMarkdown t := fun _ => rfl

theorem countCmds_append (a b : List Char) :
    countCmds (a ++ b) = countCmds a + countCmds b := by
  simp [countCmds, List.countP_append]

theorem countCmds_cmd_item (c : Char) (x y : Frac) (h : (c = 'M' || c = 'L') = true) :
    countCmds ([c] ++ fmt2 x ++ ',' :: fmt2 y) = 1 := by
  simp only [countCmds, List.countP_append, List.countP_cons, List.countP_nil]
  have hx := countCmds_fmt2 x
  have hy := countCmds_fmt2 y
  simp only [countCmds] at hx hy
  simp [hx, hy, h]

/-- C9: sparkline degenerate cases are total: the empty series renders
to the empty string; a one-point series yields exactly one path command,
whose X coordinate equals the left padding boundary (`pad = 6`) — the
divisions are guarded by `Math.max(1, n-1)` and the range-1 fallback, so
no division by zero occurs. -/
theorem renderSparkline_degenerate_total (o : SparkOpts) (v : Frac) :
    renderSparkline [] o = [] ∧
    countCmds (sparklineD [v] o) = 1 ∧
    (renderSparklinePoints [v] o).map (fun p => feq p.1 sparkPad) = [true] := by
  refine ⟨rfl, ?_, ?_⟩
  · show countCmds (sparklineD [v] o) = 1
    unfold sparklineD renderSparklinePoints mapWithIdx
    simp only [mapIdxAux, joinSp, if_true]
    exact countCmds_cmd_item 'M' _ _ (by decide)
  · simp only [renderSparklinePoints, mapWithIdx, mapIdxAux, List.map_cons, List.map_nil]
    have : feq (fadd sparkPad
        (fdiv (fmul (natFrac 0) (fsub o.width (fmul (natFrac 2) sparkPad)))
          (natFrac (Nat.max 1 ([v].length - 1))))) sparkPad = true := by
      apply feq_fadd_zero_num
      simp [fdiv, fmul, natFrac]
    rw [this]

/-- C2 (counterexample to the claim as stated): for the constant series
`[5, 5]` at the default geometry (width 280, height 60, pad 6) every
emitted point has Y value 54 = height − pad, and 54 is NOT the value
midway between the top padding and height minus padding
(`(6 + 54) / 2 = 30`): the flat line sits on the bottom padding line,
not the mid-line announced by the spec. -/
theorem renderSparkline_const_not_midline_cex :
    ((renderSparklinePoints [natFrac 5, natFrac 5] sparkDefaults).map
        (fun p => feq p.2 (natFrac 54))) = [true, true] ∧
    feq (natFrac 54)
      (fdiv (fadd sparkPad (fsub sparkDefaults.height sparkPad)) (natFrac 2)) = false := by
  decide

/-- C2 (amended): for every non-empty series whose minimum equals its
maximum, the renderer treats the range as 1 (no division by zero) and
produces a flat line: every emitted point's Y value equals
height − padding (the bottom padding line). -/
theorem renderSparkline_const_flat (values : List Frac) (o : SparkOpts)
    (hne : values ≠ [])
    (hpos : ∀ v ∈ values, 0 < v.den)
    (hconst : feq (listMin values) (listMax values) = true) :
    (renderSparklinePoints values o).all
      (fun p => feq p.2 (fsub o.height sparkPad)) = true := by
  rw [List.all_eq_true]
  intro p hp
  simp only [renderSparklinePoints] at hp
  obtain ⟨j, v, hv, rfl⟩ := mem_mapWithIdx _ _ _ hp
  have hminden : 0 < (listMin values).den := hpos _ (listMin_mem hne)
  have hmaxden : 0 < (listMax values).den := hpos _ (listMax_mem hne)
  have hvden : 0 < v.den := hpos _ hv
  have hminv : fle (listMin values) v = true := listMin_le hpos v hv
  have hvmax : fle v (listMax values) = true := listMax_ge hpos v hv
  have hmaxmin : fle (listMax values) (listMin values) = true := (feq_to_fle hconst).2
  have hvmin : fle v (listMin values) = true :=
    fle_trans_pos hvden hmaxden hminden hvmax hmaxmin
  have hveq : feq v (listMin values) = true := fle_antisymm_feq hvmin hminv
  have hz : (fsub v (listMin values)).num = 0 := by
    simp only [feq, decide_eq_true_eq] at hveq
    simp only [fsub]
    omega
  have hifr : (if feq (listMax values) (listMin values) = true then natFrac 1
      else fsub (listMax values) (listMin values)) = natFrac 1 := by
    rw [feq_symm] at hconst
    simp [hconst]
  simp only [hifr]
  exact feq_fsub_zero_num _ _ (by simp [fdiv, fmul, natFrac, hz])

/-- Witness for the amended C2 at the spec's own example `[5, 5, 5]`
(all hypotheses discharged by evaluation). -/
theorem renderSparkline_const_flat_witness :
    (renderSparklinePoints [natFrac 5, natFrac 5, natFrac 5] sparkDefaults).all
      (fun p => feq p.2 (fsub sparkDefaults.height sparkPad)) = true :=
  renderSparkline_const_flat [natFrac 5, natFrac 5, natFrac 5] sparkDefaults
    (by decide) (by decide) (by decide)

/-- C8: the stopword/length filter is the order-preserving subsequence
of the token sequence keeping exactly the tokens of length > 1 whose
form is not in the fixed stopword set; in particular no stopword and no
length-≤-1 token ever appears in a filtered sequence, for every input
text (whatever its case or punctuation, which the tokenizer has already
normalized away). -/
theorem wordsWithoutStopwords_pipeline (text : List Char) :
    List.Sublist (wordsWithoutStopwords (tokenizeForWordCount text))
      (tokenizeForWordCount text) ∧
    (∀ w, w ∈ wordsWithoutStopwords (tokenizeForWordCount text) ↔
      (w ∈ tokenizeForWordCount text ∧ 1 < w.length ∧ w ∉ STOPWORDS)) ∧
    ((wordsWithoutStopwords (tokenizeForWordCount text)).all
      (fun w => decide (1 < w.length) && !(STOPWORDS.contains w)) = true) ∧
    (∀ w, 1 < w.length → w ∉ STOPWORDS →
      (wordsWithoutStopwords (tokenizeForWordCount text)).count w
        = (tokenizeForWordCount text).count w) := by
  refine ⟨List.filter_sublist _, ?_, ?_, ?_⟩
  · intro w
    unfold wordsWithoutStopwords
    rw [List.mem_filter]
    simp only [Bool.and_eq_true, decide_eq_true_eq, Bool.not_eq_true']
    constructor
    · rintro ⟨hmem, hlen, hcont⟩
      refine ⟨hmem, hlen, fun hw => ?_⟩
      rw [show STOPWORDS.contains w = List.elem w STOPWORDS from rfl] at hcont
      rw [List.elem_iff.2 hw] at hcont
      exact Bool.noConfusion hcont
    · rintro ⟨hmem, hlen, hnst⟩
      refine ⟨hmem, hlen, ?_⟩
      rw [show STOPWORDS.contains w = List.elem w STOPWORDS from rfl]
      by_cases hel : List.elem w STOPWORDS = true
      · exact absurd (List.elem_iff.1 hel) hnst
      · simpa using hel
  · rw [List.all_eq_true]
    intro w hw
    exact (List.mem_filter.1 hw).2
  · intro w hlen hnst
    unfold wordsWithoutStopwords
    apply List.count_filter
    simp only [Bool.and_eq_true, decide_eq_true_eq, Bool.not_eq_true']
    refine ⟨hlen, ?_⟩
    rw [show STOPWORDS.contains w = List.elem w STOPWORDS from rfl]
    by_cases hel : List.elem w STOPWORDS = true
    · exact absurd (List.elem_iff.1 hel) hnst
    · simpa using hel

/-- Witness for C8 at a concrete text: every surviving token of
`"The cat sat on a mat"` has length > 1 and is no stopword. -/
theorem wordsWithoutStopwords_pipeline_witness :
    ((wordsWithoutStopwords (tokenizeForWordCount "The cat sat on a mat".toList)).all
      (fun w => decide (1 < w.length) && !(STOPWORDS.contains w)) = true) :=
  (wordsWithoutStopwords_pipeline "The cat sat on a mat".toList).2.2.1

/-! ## Nodup keys of the pipeline maps -/

theorem nodupKeys_foldl {κ ν β : Type} [DecidableEq κ]
    (f : List (κ × ν) → β → List (κ × ν))
    (hf : ∀ m b, (m.map Prod.fst).Nodup → ((f m b).map Prod.fst).Nodup) :
    ∀ (l : List β) (m : List (κ × ν)),
      (m.map Prod.fst).Nodup → ((l.foldl f m).map Prod.fst).Nodup := by
  intro l
  induction l with
  | nil => intro m h; exact h
  | cons b bs ih => intro m h; exact ih _ (hf m b h)

theorem nodupKeys_pwmcEntry (order : List (List Char)) (m : List (List Char × List Nat))
    (e : Entry) (h : (m.map Prod.fst).Nodup) :
    ((pwmcEntry order m e).map Prod.fst).Nodup := by
  unfold pwmcEntry
  exact nodupKeys_foldl _ (fun m w hm => nodupKeys_mapSet m w _ hm) _ m h

theorem nodupKeys_perWordMonthCounts (es : List Entry) :
    ((perWordMonthCounts es).map Prod.fst).Nodup := by
  unfold perWordMonthCounts
  exact nodupKeys_foldl _ (fun m e hm => nodupKeys_pwmcEntry _ m e hm) es [] (by simp)

/-- C1 (counterexample to the claim as stated): in `demoA`, "zebra"
occurs 10 times in the first month and never afterwards; its
after-first-month total is 0 < 10, yet it is a trend-ranking candidate
(it survives the `wordsGte10` gate, both before and after the variance
sort) because the gate sums the FULL series before dropping the first
month. -/
theorem wordsGte10_gate_cex :
    "zebra".toList ∈ (wordsGte10 demoA).map Prod.fst ∧
    "zebra".toList ∈ (wordsGte10Sorted demoA).map Prod.fst ∧
    natSum (((mapGet (perWordMonthCounts demoA) "zebra".toList).getD []).drop 1) < 10 := by
  decide

/-- C1 (amended): a word is a trend-ranking candidate (member of
`wordsGte10`, equivalently of its variance-sorted permutation that seeds
both the spiky and the hottest rankings) if and only if the sum of its
FULL monthly series — including the first month of the Month Index,
which is dropped from the series only after this gate — is at least 10. -/
theorem wordsGte10_gate_full_sum (es : List Entry) (w : List Char) :
    (w ∈ (wordsGte10 es).map Prod.fst ↔
      ∃ arr, mapGet (perWordMonthCounts es) w = some arr ∧ 10 ≤ natSum arr) ∧
    List.Perm ((wordsGte10Sorted es).map Prod.fst) ((wordsGte10 es).map Prod.fst) ∧
    (w ∈ (wordsGte10Sorted es).map Prod.fst ↔ w ∈ (wordsGte10 es).map Prod.fst) := by
  have hperm : List.Perm ((wordsGte10Sorted es).map Prod.fst)
      ((wordsGte10 es).map Prod.fst) :=
    (jsSort_perm _ (wordsGte10 es)).map Prod.fst
  refine ⟨?_, hperm, hperm.mem_iff⟩
  unfold wordsGte10
  rw [List.map_map]
  constructor
  · intro hw
    obtain ⟨p, hp, hpw⟩ := List.mem_map.1 hw
    obtain ⟨hpm, hpq⟩ := List.mem_filter.1 hp
    refine ⟨p.2, ?_, by simpa using hpq⟩
    have : (w, p.2) = p := by
      have : (Prod.fst ∘ fun p : List Char × List Nat => (p.1, p.2.drop 1)) p = p.1 := rfl
      rw [this] at hpw
      rw [← hpw]
    rw [← this] at hpm
    exact mapGet_eq_some_of_mem (nodupKeys_perWordMonthCounts es) hpm
  · rintro ⟨arr, hget, hsum⟩
    apply List.mem_map.2
    refine ⟨(w, arr), List.mem_filter.2 ⟨mem_of_mapGet_eq_some hget, by simpa using hsum⟩, rfl⟩

/-! ## Counting infrastructure for the aggregation proofs -/

/-- Total occurrences of `w` across all entries' filtered tokens. -/
def countTotal (es : List Entry) (w : List Char) : Nat :=
  (es.map (fun e => (tokensOf e).count w)).sum

/-- Sum of the counter array stored for `w` (0 when absent). -/
def seriesSum (m : List (List Char × List Nat)) (w : List Char) : Nat :=
  natSum ((mapGet m w).getD [])

/-- All stored counter arrays have length `L`. -/
def ArrLenInv (L : Nat) (m : List (List Char × List Nat)) : Prop :=
  ∀ w arr, mapGet m w = some arr → arr.length = L

theorem natSum_eq_sum (l : List Nat) : natSum l = l.sum := by
  unfold natSum
  suffices h : ∀ n, l.foldl (· + ·) n = n + l.sum by
    simpa using h 0
  induction l with
  | nil => intro n; simp
  | cons a t ih => intro n; simp [List.foldl_cons, ih, List.sum_cons]; omega

theorem length_bumpAt (arr : List Nat) (i : Nat) : (bumpAt arr i).length = arr.length := by
  simp [bumpAt]

theorem natSum_bumpAt (arr : List Nat) (i : Nat) (h : i < arr.length) :
    natSum (bumpAt arr i) = natSum arr + 1 := by
  rw [natSum_eq_sum, natSum_eq_sum]
  induction arr generalizing i with
  | nil => simp at h
  | cons a t ih =>
    cases i with
    | zero => simp [bumpAt, List.sum_cons]; omega
    | succ j =>
      have hj : j < t.length := by simpa using h
      have : bumpAt (a :: t) (j + 1) = a :: bumpAt t j := by simp [bumpAt]
      rw [this]
      simp only [List.sum_cons]
      rw [ih j hj]
      omega

theorem natSum_nil : natSum [] = 0 := rfl

theorem natSum_replicate_zero (n : Nat) : natSum (List.replicate n 0) = 0 := by
  rw [natSum_eq_sum]
  induction n with
  | zero => simp
  | succ k ih => simp [List.replicate_succ, List.sum_cons, ih]

theorem mem_dedupFirst {α : Type} [DecidableEq α] (a : α) :
    ∀ l : List α, a ∈ dedupFirst l ↔ a ∈ l := by
  intro l
  induction l with
  | nil => simp [dedupFirst]
  | cons b r ih =>
    simp only [dedupFirst, List.mem_cons]
    by_cases hab : a = b
    · simp [hab]
    · simp only [hab, false_or]
      rw [List.mem_filter]
      simp [hab, ih]

theorem ymKey_mem_monthlyOrder {es : List Entry} {e : Entry} (he : e ∈ es) :
    ymKey e ∈ monthlyOrder es := by
  unfold monthlyOrder
  rw [mem_jsSort]
  rw [mem_dedupFirst]
  exact List.mem_map_of_mem ymKey he

theorem pwmcToken_facts (order : List (List Char)) (ym : List Char)
    (m : List (List Char × List Nat)) (w' : List Char)
    (hym : ym ∈ order) (hinv : ArrLenInv order.length m) :
    ArrLenInv order.length (pwmcToken order ym m w') ∧
    seriesSum (pwmcToken order ym m w') w' = seriesSum m w' + 1 ∧
    (∀ w, w ≠ w' → seriesSum (pwmcToken order ym m w') w = seriesSum m w) := by
  have hidx : order.indexOf ym < order.length := by
    unfold List.indexOf
    exact List.findIdx_lt_length_of_exists ⟨ym, hym, by simp⟩
  have harr0len : ((mapGet m w').getD (List.replicate order.length 0)).length
      = order.length := by
    cases hg : mapGet m w' with
    | none => simp
    | some arr => simpa using hinv w' arr hg
  refine ⟨?_, ?_, ?_⟩
  · intro w arr hw
    unfold pwmcToken at hw
    by_cases hww : w = w'
    · subst hww
      rw [mapGet_mapSet_self] at hw
      have harr := Option.some.inj hw
      rw [← harr, length_bumpAt, harr0len]
    · rw [mapGet_mapSet_ne _ _ _ _ hww] at hw
      exact hinv w arr hw
  · unfold pwmcToken seriesSum
    rw [mapGet_mapSet_self, Option.getD_some]
    rw [natSum_bumpAt _ _ (by rw [harr0len]; exact hidx)]
    cases hg : mapGet m w' with
    | none => simp [hg, natSum_replicate_zero, natSum_nil]
    | some arr => simp
  · intro w hww
    unfold pwmcToken seriesSum
    rw [mapGet_mapSet_ne _ _ _ _ hww]

theorem pwmcToken_foldl_facts (order : List (List Char)) (ym : List Char)
    (hym : ym ∈ order) :
    ∀ (ts : List (List Char)) (m : List (List Char × List Nat)),
      ArrLenInv order.length m →
      ArrLenInv order.length (ts.foldl (pwmcToken order ym) m) ∧
      (∀ w, seriesSum (ts.foldl (pwmcToken order ym) m) w = seriesSum m w + ts.count w) := by
  intro ts
  induction ts with
  | nil => intro m hinv; exact ⟨hinv, fun w => by simp⟩
  | cons t ts' ih =>
    intro m hinv
    obtain ⟨hinv1, hsum1, hother1⟩ := pwmcToken_facts order ym m t hym hinv
    obtain ⟨hinv2, hsum2⟩ := ih (pwmcToken order ym m t) hinv1
    refine ⟨hinv2, fun w => ?_⟩
    rw [List.foldl_cons, hsum2 w]
    by_cases hwt : w = t
    · subst hwt
      rw [hsum1]
      rw [List.count_cons_self]
      omega
    · rw [hother1 w hwt]
      rw [List.count_cons_of_ne (fun hh => hwt hh) ]

set_option maxHeartbeats 1000000 in
theorem pwmcEntry_foldl_facts (order : List (List Char)) :
    ∀ (es : List Entry), (∀ e ∈ es, ymKey e ∈ order) →
    ∀ (m : List (List Char × List Nat)), ArrLenInv order.length m →
      ArrLenInv order.length (es.foldl (pwmcEntry order) m) ∧
      (∀ w, seriesSum (es.foldl (pwmcEntry order) m) w
        = seriesSum m w + (es.map (fun e => (tokensOf e).count w)).sum) := by
  intro es
  induction es with
  | nil => intro _ m hinv; exact ⟨hinv, fun w => by simp⟩
  | cons e es' ih =>
    intro hmem m hinv
    have hyme : ymKey e ∈ order := hmem e (by simp)
    obtain ⟨hinv1, hsum1⟩ :=
      pwmcToken_foldl_facts order (ymKey e) hyme (tokensOf e) m hinv
    have hinv1' : ArrLenInv order.length (pwmcEntry order m e) := by
      unfold pwmcEntry
      exact hinv1
    obtain ⟨hinv2, hsum2⟩ :=
      ih (fun x hx => hmem x (List.mem_cons_of_mem _ hx)) (pwmcEntry order m e) hinv1'
    rw [List.foldl_cons]
    refine ⟨hinv2, fun w => ?_⟩
    rw [hsum2 w]
    have he : seriesSum (pwmcEntry order m e) w
        = seriesSum m w + (tokensOf e).count w := by
      unfold pwmcEntry
      exact hsum1 w
    rw [he, List.map_cons, List.sum_cons]
    omega

theorem ArrLenInv_nil (L : Nat) : ArrLenInv L [] := by
  intro w arr h
  simp [mapGet] at h

theorem perWordMonthCounts_facts (es : List Entry) :
    ArrLenInv (monthlyOrder es).length (perWordMonthCounts es) ∧
    (∀ w, seriesSum (perWordMonthCounts es) w = countTotal es w) := by
  unfold perWordMonthCounts countTotal
  obtain ⟨h1, h2⟩ := pwmcEntry_foldl_facts (monthlyOrder es) es
    (fun e he => ymKey_mem_monthlyOrder he) [] (ArrLenInv_nil _)
  refine ⟨h1, fun w => ?_⟩
  rw [h2 w]
  simp [seriesSum, mapGet, natSum_nil]

/-! ## Overall-frequency characterization -/

/-- Add a count to an optional running counter; the absent counter stays
absent only when nothing is added (JS maps create the key on first
increment). -/
def addO : Option Nat → Nat → Option Nat
  | o, 0 => o
  | none, n => some n
  | some c, n => some (c + n)

theorem addO_zero (o : Option Nat) : addO o 0 = o := by cases o <;> rfl

theorem addO_succ (o : Option Nat) (n : Nat) (h : n ≠ 0) :
    addO o n = some ((o.getD 0) + n) := by
  cases o with
  | none =>
    cases n with
    | zero => exact absurd rfl h
    | succ k => simp [addO]
  | some c =>
    cases n with
    | zero => exact absurd rfl h
    | succ k => simp [addO]

theorem addO_addO (o : Option Nat) (a b : Nat) : addO (addO o a) b = addO o (a + b) := by
  by_cases ha : a = 0
  · subst ha; rw [addO_zero]; simp
  · by_cases hb : b = 0
    · subst hb; rw [addO_zero]; simp
    · rw [addO_succ o a ha, addO_succ _ b hb, addO_succ o _ (by omega)]
      simp
      omega

theorem addO_some_getD_succ (o : Option Nat) (c : Nat) :
    addO (some ((o.getD 0) + 1)) c = addO o (c + 1) := by
  cases o <;> cases c <;> simp [addO] <;> omega

theorem addO_none (n : Nat) : addO none n = if n = 0 then none else some n := by
  cases n with
  | zero => rfl
  | succ k => simp [addO]

theorem bwfToken_overall (y : Nat) (acc : BwfState) (w' w : List Char) :
    mapGet (bwfToken y acc w').1 w
      = if w = w' then some ((mapGet acc.1 w).getD 0 + 1) else mapGet acc.1 w := by
  unfold bwfToken
  by_cases hww : w = w'
  · subst hww
    simp [mapGet_mapSet_self]
  · simp only [hww, if_false]
    exact mapGet_mapSet_ne _ _ _ _ hww

theorem bwf_overall_token_fold (y : Nat) :
    ∀ (ts : List (List Char)) (acc : BwfState) (w : List Char),
      mapGet ((ts.foldl (bwfToken y) acc).1) w = addO (mapGet acc.1 w) (ts.count w) := by
  intro ts
  induction ts with
  | nil => intro acc w; simp [addO_zero]
  | cons t ts' ih =>
    intro acc w
    rw [List.foldl_cons, ih]
    rw [bwfToken_overall]
    by_cases hwt : w = t
    · subst hwt
      rw [List.count_cons_self, if_pos rfl, addO_some_getD_succ]
    · rw [if_neg hwt, List.count_cons_of_ne (fun hh => hwt hh)]

theorem bwf_overall_fold :
    ∀ (es : List Entry) (acc : BwfState) (w : List Char),
      mapGet ((es.foldl bwfEntry acc).1) w
        = addO (mapGet acc.1 w) ((es.map (fun e => (tokensOf e).count w)).sum) := by
  intro es
  induction es with
  | nil => intro acc w; simp [addO_zero]
  | cons e es' ih =>
    intro acc w
    rw [List.foldl_cons, ih]
    show addO (mapGet (bwfEntry acc e).1 w) _ = _
    unfold bwfEntry
    rw [bwf_overall_token_fold]
    rw [addO_addO]
    simp [List.sum_cons]

theorem buildWordFrequency_overall_char (es : List Entry) (w : List Char) :
    mapGet (buildWordFrequency es).1 w
      = if countTotal es w = 0 then none else some (countTotal es w) := by
  unfold buildWordFrequency countTotal
  rw [bwf_overall_fold]
  show addO (mapGet [] w) _ = _
  rw [show mapGet ([] : List (List Char × Nat)) w = none from rfl]
  exact addO_none _

/-- C7: for every word present in the per-word-per-month matrix, its
monthly series has exactly one slot per Month Index entry, and the
series total equals the word's count in the overall frequency table. -/
theorem perWordMonthCounts_alignment (es : List Entry) (w : List Char) (arr : List Nat)
    (h : mapGet (perWordMonthCounts es) w = some arr) :
    arr.length = (monthlyOrder es).length ∧
    natSum arr = (mapGet (buildWordFrequency es).1 w).getD 0 := by
  obtain ⟨hinv, hsum⟩ := perWordMonthCounts_facts es
  refine ⟨hinv w arr h, ?_⟩
  have h1 : natSum arr = countTotal es w := by
    have := hsum w
    unfold seriesSum at this
    rw [h] at this
    simpa using this
  rw [h1, buildWordFrequency_overall_char]
  by_cases hc : countTotal es w = 0 <;> simp [hc]

/-- Witness for C7 on `demoB`: the series stored for "zebra" is
`[5, 6]`, of length 2 = number of months, summing to its overall
count 11. -/
theorem perWordMonthCounts_alignment_witness :
    ([5, 6] : List Nat).length = (monthlyOrder demoB).length ∧
    natSum [5, 6] = (mapGet (buildWordFrequency demoB).1 "zebra".toList).getD 0 :=
  perWordMonthCounts_alignment demoB "zebra".toList [5, 6] (by decide)

/-! ## Keyed-counter folds and canonical sorted output -/

/-- The common "add to keyed counter" loop body shared by the per-year
and per-month totals. -/
def keyedAdd {κ : Type} [DecidableEq κ] (m : List (κ × Nat)) (p : κ × Nat) :
    List (κ × Nat) :=
  mapSet m p.1 ((mapGet m p.1).getD 0 + p.2)

/-- Total of the values carried by key `k`. -/
def keyedSum {κ : Type} [DecidableEq κ] (items : List (κ × Nat)) (k : κ) : Nat :=
  (items.map (fun it => if it.1 = k then it.2 else 0)).sum

theorem keyedSum_eq_zero_of_not_mem {κ : Type} [DecidableEq κ]
    {items : List (κ × Nat)} {k : κ} (h : k ∉ items.map Prod.fst) :
    keyedSum items k = 0 := by
  unfold keyedSum
  induction items with
  | nil => simp
  | cons it its ih =>
    have h1 : it.1 ≠ k := by
      intro hh
      exact h (by simp [hh])
    have h2 : k ∉ its.map Prod.fst := fun hh => h (by simp [hh])
    simp [h1, ih h2]

theorem keyedAdd_foldl_char {κ : Type} [DecidableEq κ] :
    ∀ (items : List (κ × Nat)) (m : List (κ × Nat)) (k : κ),
      mapGet (items.foldl keyedAdd m) k =
        if k ∈ items.map Prod.fst then some ((mapGet m k).getD 0 + keyedSum items k)
        else mapGet m k := by
  intro items
  induction items with
  | nil => intro m k; simp
  | cons it its ih =>
    intro m k
    rw [List.foldl_cons, ih]
    by_cases hk : k = it.1
    · have hag : mapGet (keyedAdd m it) k = some ((mapGet m k).getD 0 + it.2) := by
        unfold keyedAdd
        rw [hk]
        exact mapGet_mapSet_self m it.1 _
      have hsum : keyedSum (it :: its) k = it.2 + keyedSum its k := by
        unfold keyedSum
        simp [List.map_cons, List.sum_cons, hk]
      have hmem1 : k ∈ (it :: its).map Prod.fst := by simp [hk]
      by_cases hmem : k ∈ its.map Prod.fst
      · rw [if_pos hmem, if_pos hmem1, hag, hsum, Option.getD_some]
        congr 1
        omega
      · rw [if_neg hmem, if_pos hmem1, hag, hsum, keyedSum_eq_zero_of_not_mem hmem]
        congr 1
    · have hag : mapGet (keyedAdd m it) k = mapGet m k := by
        unfold keyedAdd
        exact mapGet_mapSet_ne m it.1 k _ hk
      have hne : it.1 ≠ k := fun hh => hk hh.symm
      have hsum : keyedSum (it :: its) k = keyedSum its k := by
        unfold keyedSum
        simp [List.map_cons, List.sum_cons, hne]
      have hmemiff : (k ∈ (it :: its).map Prod.fst) ↔ k ∈ its.map Prod.fst := by
        simp only [List.map_cons, List.mem_cons]
        constructor
        · rintro (hh | hh)
          · exact absurd hh.symm hne
          · exact hh
        · exact fun hh => Or.inr hh
      by_cases hmem : k ∈ its.map Prod.fst
      · rw [if_pos hmem, if_pos (hmemiff.2 hmem), hag, hsum]
      · rw [if_neg hmem, if_neg (fun hh => hmem (hmemiff.1 hh)), hag]

theorem nodupKeys_keyedAdd_foldl {κ : Type} [DecidableEq κ] (items : List (κ × Nat)) :
    ((items.foldl keyedAdd []).map Prod.fst).Nodup :=
  nodupKeys_foldl keyedAdd
    (fun m p hm => nodupKeys_mapSet m p.1 _ hm) items [] (by simp)

theorem keyedSum_perm {κ : Type} [DecidableEq κ] {items₁ items₂ : List (κ × Nat)}
    (h : List.Perm items₁ items₂) (k : κ) : keyedSum items₁ k = keyedSum items₂ k := by
  unfold keyedSum
  exact (h.map (fun it : κ × Nat => if it.1 = k then it.2 else 0)).sum_eq

/-- Sorted association lists with equal lookups and nodup keys are
equal: the unique canonical form of a JS `Map` sorted by keys. -/
theorem sort_assoc_eq {κ ν : Type} [DecidableEq κ] (le : κ → κ → Bool)
    (htotal : ∀ a b, (le a b || le b a) = true)
    (htrans : ∀ a b c, le a b = true → le b c = true → le a c = true)
    (hanti : ∀ a b, le a b = true → le b a = true → a = b)
    (m₁ m₂ : List (κ × ν))
    (h1 : (m₁.map Prod.fst).Nodup) (h2 : (m₂.map Prod.fst).Nodup)
    (hget : ∀ k, mapGet m₁ k = mapGet m₂ k) :
    jsSort (fun a b => le a.1 b.1) m₁ = jsSort (fun a b => le a.1 b.1) m₂ := by
  have hmemiff : ∀ p : κ × ν, p ∈ m₁ ↔ p ∈ m₂ := by
    intro p
    rw [← mapGet_eq_some_iff_mem h1, ← mapGet_eq_some_iff_mem h2, hget]
  have hperm : List.Perm m₁ m₂ :=
    (List.perm_ext_iff_of_nodup (h1.of_map _) (h2.of_map _)).2 hmemiff
  have hs1 := pairwise_jsSort (fun a b => le a.1 b.1)
    (fun a b => htotal a.1 b.1) (fun a b c => htrans a.1 b.1 c.1) m₁
  have hs2 := pairwise_jsSort (fun a b => le a.1 b.1)
    (fun a b => htotal a.1 b.1) (fun a b c => htrans a.1 b.1 c.1) m₂
  have hn1 : (((jsSort (fun a b => le a.1 b.1) m₁).map Prod.fst)).Nodup :=
    (((jsSort_perm _ m₁).map Prod.fst).nodup_iff).2 h1
  have hn2 : (((jsSort (fun a b => le a.1 b.1) m₂).map Prod.fst)).Nodup :=
    (((jsSort_perm _ m₂).map Prod.fst).nodup_iff).2 h2
  have hp : List.Perm (jsSort (fun a b => le a.1 b.1) m₁) (jsSort (fun a b => le a.1 b.1) m₂) :=
    ((jsSort_perm _ m₁).trans hperm).trans (jsSort_perm _ m₂).symm
  have hne1 : (jsSort (fun a b => le a.1 b.1) m₁).Pairwise (fun a b => a.1 ≠ b.1) :=
    List.pairwise_map.1 hn1
  have hne2 : (jsSort (fun a b => le a.1 b.1) m₂).Pairwise (fun a b => a.1 ≠ b.1) :=
    List.pairwise_map.1 hn2
  have hst1 : (jsSort (fun a b => le a.1 b.1) m₁).Pairwise
      (fun a b : κ × ν => le a.1 b.1 = true ∧ a.1 ≠ b.1) := hs1.and hne1
  have hst2 : (jsSort (fun a b => le a.1 b.1) m₂).Pairwise
      (fun a b : κ × ν => le a.1 b.1 = true ∧ a.1 ≠ b.1) := hs2.and hne2
  haveI : IsAntisymm (κ × ν) (fun a b : κ × ν => le a.1 b.1 = true ∧ a.1 ≠ b.1) :=
    ⟨fun a b ha hb => absurd (hanti a.1 b.1 ha.1 hb.1) ha.2⟩
  exact List.eq_of_perm_of_sorted hp hst1 hst2

theorem natLeB_total (a b : Nat) : ((decide (a ≤ b) || decide (b ≤ a)) = true) := by
  rcases Nat.le_total a b with h | h <;> simp [h]

theorem natLeB_trans (a b c : Nat) (h1 : decide (a ≤ b) = true) (h2 : decide (b ≤ c) = true) :
    decide (a ≤ c) = true := by
  simp only [decide_eq_true_eq] at h1 h2 ⊢
  omega

theorem natLeB_antisymm (a b : Nat) (h1 : decide (a ≤ b) = true) (h2 : decide (b ≤ a) = true) :
    a = b := by
  simp only [decide_eq_true_eq] at h1 h2
  omega

theorem aggregateCountsByYear_perm {items₁ items₂ : List (Nat × Nat)}
    (h : List.Perm items₁ items₂) :
    aggregateCountsByYear items₁ = aggregateCountsByYear items₂ := by
  unfold aggregateCountsByYear
  have hfold : ∀ items : List (Nat × Nat), items.foldl aggStep [] = items.foldl keyedAdd [] :=
    fun _ => rfl
  rw [hfold items₁, hfold items₂]
  apply sort_assoc_eq (fun x y : Nat => decide (x ≤ y)) natLeB_total natLeB_trans natLeB_antisymm
  · exact nodupKeys_keyedAdd_foldl items₁
  · exact nodupKeys_keyedAdd_foldl items₂
  · intro k
    rw [keyedAdd_foldl_char, keyedAdd_foldl_char]
    have hmem : k ∈ items₁.map Prod.fst ↔ k ∈ items₂.map Prod.fst := (h.map Prod.fst).mem_iff
    have hks := keyedSum_perm h k
    by_cases hm : k ∈ items₁.map Prod.fst
    · rw [if_pos hm, if_pos (hmem.1 hm), hks]
    · rw [if_neg hm, if_neg (fun hh => hm (hmem.2 hh))]

theorem foldl_congr {α β : Type} {f g : α → β → α} (h : ∀ a b, f a b = g a b) :
    ∀ (l : List β) (init : α), l.foldl f init = l.foldl g init := by
  intro l
  induction l with
  | nil => intro init; rfl
  | cons x xs ih =>
    intro init
    rw [List.foldl_cons, List.foldl_cons, h init x, ih]

set_option maxHeartbeats 2000000 in
theorem perMonthPairs_perm {es₁ es₂ : List Entry} (h : List.Perm es₁ es₂) :
    perMonthPairs es₁ = perMonthPairs es₂ := by
  unfold perMonthPairs
  have hfold : ∀ es : List Entry, es.foldl pmStep []
      = (es.map (fun e => (ymKey e, (tokensOf e).length))).foldl keyedAdd [] := by
    intro es
    rw [List.foldl_map]
    exact foldl_congr (fun m e => by simp only [pmStep, keyedAdd]) es []
  rw [hfold es₁, hfold es₂]
  have hp : List.Perm (es₁.map (fun e => (ymKey e, (tokensOf e).length)))
      (es₂.map (fun e => (ymKey e, (tokensOf e).length))) := h.map _
  apply sort_assoc_eq lexLe lexLe_total lexLe_trans lexLe_antisymm
  · exact nodupKeys_keyedAdd_foldl _
  · exact nodupKeys_keyedAdd_foldl _
  · intro k
    rw [keyedAdd_foldl_char, keyedAdd_foldl_char]
    have hmem := (hp.map Prod.fst).mem_iff (a := k)
    have hks := keyedSum_perm hp k
    by_cases hm : k ∈ (es₁.map (fun e => (ymKey e, (tokensOf e).length))).map Prod.fst
    · rw [if_pos hm, if_pos (hmem.1 hm), hks]
    · rw [if_neg hm, if_neg (fun hh => hm (hmem.2 hh))]

/-! ## Per-year table characterization -/

/-- Occurrences of `w` within entries of year `y`. -/
def yearCount (es : List Entry) (y : Nat) (w : List Char) : Nat :=
  (es.map (fun e => if e.year = y then (tokensOf e).count w else 0)).sum

/-- Whether some entry of year `y` contributes at least one token. -/
def yearHasTok (es : List Entry) (y : Nat) : Bool :=
  es.any (fun e => decide (e.year = y) && !(tokensOf e).isEmpty)

theorem bwfToken_py_facts (y' : Nat) (acc : BwfState) (w' : List Char) :
    (∀ y, y ≠ y' → mapGet (bwfToken y' acc w').2 y = mapGet acc.2 y) ∧
    ((mapGet (bwfToken y' acc w').2 y').isSome = true) ∧
    (∀ w, mapGet ((mapGet (bwfToken y' acc w').2 y').getD []) w
      = if w = w' then some ((mapGet ((mapGet acc.2 y').getD []) w).getD 0 + 1)
        else mapGet ((mapGet acc.2 y').getD []) w) := by
  have hym : (mapGet (if (mapGet acc.2 y').isSome then acc.2 else mapSet acc.2 y' []) y').getD []
      = (mapGet acc.2 y').getD [] := by
    cases hg : mapGet acc.2 y' with
    | none => simp [hg, mapGet_mapSet_self]
    | some m0 => simp [hg]
  refine ⟨?_, ?_, ?_⟩
  · intro y hy
    unfold bwfToken
    simp only
    rw [mapGet_mapSet_ne _ _ _ _ hy]
    cases hg : mapGet acc.2 y' with
    | none => simp only [hg, Option.isSome_none, Bool.false_eq_true, if_false]
              exact mapGet_mapSet_ne _ _ _ _ hy
    | some m0 => simp [hg]
  · unfold bwfToken
    simp only
    rw [mapGet_mapSet_self]
    rfl
  · intro w
    unfold bwfToken
    simp only
    rw [mapGet_mapSet_self, Option.getD_some, hym]
    by_cases hww : w = w'
    · rw [if_pos hww, hww, mapGet_mapSet_self]
    · rw [if_neg hww, mapGet_mapSet_ne _ _ _ _ hww]

theorem bwf_py_token_fold (y' : Nat) :
    ∀ (ts : List (List Char)) (acc : BwfState),
      (∀ y, y ≠ y' → mapGet ((ts.foldl (bwfToken y') acc).2) y = mapGet acc.2 y) ∧
      ((mapGet ((ts.foldl (bwfToken y') acc).2) y').isSome
        = ((mapGet acc.2 y').isSome || !ts.isEmpty)) ∧
      (∀ w, mapGet ((mapGet ((ts.foldl (bwfToken y') acc).2) y').getD []) w
        = addO (mapGet ((mapGet acc.2 y').getD []) w) (ts.count w)) := by
  intro ts
  induction ts with
  | nil =>
    intro acc
    refine ⟨fun y _ => rfl, by simp, fun w => by simp [addO_zero]⟩
  | cons t ts' ih =>
    intro acc
    obtain ⟨hne1, hsome1, hinner1⟩ := bwfToken_py_facts y' acc t
    obtain ⟨hne2, hsome2, hinner2⟩ := ih (bwfToken y' acc t)
    refine ⟨?_, ?_, ?_⟩
    · intro y hy
      rw [List.foldl_cons, hne2 y hy, hne1 y hy]
    · rw [List.foldl_cons, hsome2, hsome1]
      simp
    · intro w
      rw [List.foldl_cons, hinner2 w, hinner1 w]
      by_cases hwt : w = t
      · rw [if_pos hwt, addO_some_getD_succ, hwt, List.count_cons_self]
      · rw [if_neg hwt, List.count_cons_of_ne (fun hh => hwt hh)]

theorem bwf_py_entry_fold :
    ∀ (es : List Entry) (acc : BwfState) (y : Nat),
      ((mapGet ((es.foldl bwfEntry acc).2) y).isSome
        = ((mapGet acc.2 y).isSome || yearHasTok es y)) ∧
      (∀ w, mapGet ((mapGet ((es.foldl bwfEntry acc).2) y).getD []) w
        = addO (mapGet ((mapGet acc.2 y).getD []) w) (yearCount es y w)) := by
  intro es
  induction es with
  | nil =>
    intro acc y
    refine ⟨by simp [yearHasTok], fun w => by simp [yearCount, addO_zero]⟩
  | cons e es' ih =>
    intro acc y
    obtain ⟨hsome2, hinner2⟩ := ih (bwfEntry acc e) y
    have hstep := bwf_py_token_fold e.year (tokensOf e) acc
    have hbe : bwfEntry acc e = (tokensOf e).foldl (bwfToken e.year) acc := by
      simp only [bwfEntry]
    have hht : yearHasTok (e :: es') y
        = ((decide (e.year = y) && !(tokensOf e).isEmpty) || yearHasTok es' y) := by
      simp [yearHasTok]
    have hyc : ∀ w, yearCount (e :: es') y w
        = (if e.year = y then (tokensOf e).count w else 0) + yearCount es' y w := by
      intro w
      simp [yearCount]
    by_cases hy : e.year = y
    · subst hy
      refine ⟨?_, ?_⟩
      · rw [List.foldl_cons, hsome2, hbe, hstep.2.1, hht]
        simp [Bool.or_assoc]
      · intro w
        rw [List.foldl_cons, hinner2 w, hbe, hstep.2.2 w, addO_addO, hyc w]
        rw [if_pos rfl]
    · have hyne : y ≠ e.year := fun hh => hy hh.symm
      refine ⟨?_, ?_⟩
      · rw [List.foldl_cons, hsome2, hbe, hstep.1 y hyne, hht]
        simp [hy]
      · intro w
        rw [List.foldl_cons, hinner2 w, hbe, hstep.1 y hyne, hyc w]
        rw [if_neg hy, Nat.zero_add]

theorem bwf_py_char (es : List Entry) (y : Nat) :
    ((mapGet (buildWordFrequency es).2 y).isSome = yearHasTok es y) ∧
    (∀ w, mapGet ((mapGet (buildWordFrequency es).2 y).getD []) w
      = if yearCount es y w = 0 then none else some (yearCount es y w)) := by
  obtain ⟨h1, h2⟩ := bwf_py_entry_fold es ([], []) y
  have hbwf : buildWordFrequency es = es.foldl bwfEntry ([], []) := by
    simp only [buildWordFrequency]
  refine ⟨?_, ?_⟩
  · rw [hbwf, h1]
    simp [mapGet]
  · intro w
    rw [hbwf, h2 w]
    rw [show (mapGet (([], []) : BwfState).2 y) = none from rfl]
    rw [show mapGet ((none : Option (List (List Char × Nat))).getD []) w = none from rfl]
    exact addO_none _

theorem yearCount_perm {es₁ es₂ : List Entry} (h : List.Perm es₁ es₂) (y : Nat)
    (w : List Char) : yearCount es₁ y w = yearCount es₂ y w := by
  unfold yearCount
  exact (h.map _).sum_eq

theorem yearHasTok_perm {es₁ es₂ : List Entry} (h : List.Perm es₁ es₂) (y : Nat) :
    yearHasTok es₁ y = yearHasTok es₂ y := by
  unfold yearHasTok
  rw [List.any_eq, List.any_eq]
  exact decide_eq_decide.mpr (by
    constructor
    · rintro ⟨x, hx, hp⟩
      exact ⟨x, h.mem_iff.1 hx, hp⟩
    · rintro ⟨x, hx, hp⟩
      exact ⟨x, h.mem_iff.2 hx, hp⟩)

theorem countTotal_perm {es₁ es₂ : List Entry} (h : List.Perm es₁ es₂) (w : List Char) :
    countTotal es₁ w = countTotal es₂ w := by
  unfold countTotal
  exact (h.map _).sum_eq

/-- C6: entry-order independence of aggregation — permuting the entry
list leaves the per-year totals sequence, the per-month totals
sequence, the overall word-frequency table (as a mapping) and the
per-year word-frequency tables (as mappings, including which years are
present) unchanged. -/
theorem aggregation_entry_order_independent (es es' : List Entry)
    (hperm : List.Perm es' es) :
    aggregateCountsByYear (getWordCountsPerEntry es')
      = aggregateCountsByYear (getWordCountsPerEntry es) ∧
    perMonthPairs es' = perMonthPairs es ∧
    (∀ w, mapGet (buildWordFrequency es').1 w = mapGet (buildWordFrequency es).1 w) ∧
    (∀ y, (mapGet (buildWordFrequency es').2 y).isSome
        = (mapGet (buildWordFrequency es).2 y).isSome) ∧
    (∀ y w, mapGet ((mapGet (buildWordFrequency es').2 y).getD []) w
        = mapGet ((mapGet (buildWordFrequency es).2 y).getD []) w) := by
  refine ⟨?_, perMonthPairs_perm hperm, ?_, ?_, ?_⟩
  · apply aggregateCountsByYear_perm
    unfold getWordCountsPerEntry
    exact hperm.map _
  · intro w
    rw [buildWordFrequency_overall_char, buildWordFrequency_overall_char,
      countTotal_perm hperm w]
  · intro y
    rw [(bwf_py_char es' y).1, (bwf_py_char es y).1, yearHasTok_perm hperm y]
  · intro y w
    rw [(bwf_py_char es' y).2 w, (bwf_py_char es y).2 w, yearCount_perm hperm y w]

/-- Witness for C6: swapping the two entries of `demoA` leaves the
per-year totals unchanged. -/
theorem aggregation_entry_order_independent_witness :
    aggregateCountsByYear (getWordCountsPerEntry demoA.reverse)
      = aggregateCountsByYear (getWordCountsPerEntry demoA) :=
  (aggregation_entry_order_independent demoA demoA.reverse (by decide)).1

/-! ## Hottest-ranking contract -/

/-- The claim's description of `prevSum`: the sum of the `windowN`
months immediately preceding the recent window, computed only when at
least `2 * windowN` months of the (first-month-dropped) series are
available, and 0 otherwise.  Stated from the spec's words, to be
compared with the code's `mkHot`. -/
def specPrev (es : List Entry) (s : List Nat) : Nat :=
  if 2 * windowN es ≤ s.length then
    natSum ((s.take (s.length - windowN es)).drop (s.length - 2 * windowN es))
  else 0

theorem windowN_eq (es : List Entry) :
    windowN es = Nat.min 3 (Nat.max 1 ((monthlyOrder es).length / 8)) := by
  unfold windowN
  have hsh : (monthlyOrder es).length >>> 3 = (monthlyOrder es).length / 8 := by
    rw [Nat.shiftRight_eq_div_pow]
  rw [hsh]
  have hne : Nat.max 1 ((monthlyOrder es).length / 8) ≠ 0 := by
    unfold Nat.max
    have : (0 : Nat) < 1 ⊔ (monthlyOrder es).length / 8 :=
      lt_of_lt_of_le one_pos le_sup_left
    omega
  simp [hne]

theorem havePrevB_iff (es : List Entry) :
    havePrevB es = true ↔ 2 * windowN es ≤ (monthlyOrder es).length := by
  unfold havePrevB
  simp only [decide_eq_true_eq]
  omega

theorem wordsGte10_series_length {es : List Entry} {p : List Char × List Nat}
    (hp : p ∈ wordsGte10 es) : p.2.length = (monthlyOrder es).length - 1 := by
  unfold wordsGte10 at hp
  obtain ⟨q, hq, hpq⟩ := List.mem_map.1 hp
  obtain ⟨hqm, _⟩ := List.mem_filter.1 hq
  have hqget : mapGet (perWordMonthCounts es) q.1 = some q.2 :=
    mapGet_eq_some_of_mem (nodupKeys_perWordMonthCounts es) (by simpa using hqm)
  have hlen := (perWordMonthCounts_facts es).1 q.1 q.2 hqget
  rw [← hpq]
  simp [hlen]

theorem windowN_pos (es : List Entry) : 1 ≤ windowN es := by
  rw [windowN_eq]
  unfold Nat.min Nat.max
  exact le_inf_iff.2 ⟨by norm_num, le_sup_left⟩

theorem windowN_le_three (es : List Entry) : windowN es ≤ 3 := by
  rw [windowN_eq]
  unfold Nat.min Nat.max
  exact inf_le_left

theorem windowN_one_of_lt16 (es : List Entry)
    (h : (monthlyOrder es).length < 16) : windowN es = 1 := by
  rw [windowN_eq]
  unfold Nat.min Nat.max
  have h8 : (monthlyOrder es).length / 8 ≤ 1 := by omega
  rw [sup_eq_left.2 h8]
  exact inf_eq_right.2 (by norm_num)

theorem mkHot_prev_eq_specPrev (es : List Entry) (p : List Char × List Nat)
    (hp : p ∈ wordsGte10 es) :
    (mkHot (windowN es) (havePrevB es) p).prev = specPrev es p.2 := by
  have hlen : p.2.length = (monthlyOrder es).length - 1 := wordsGte10_series_length hp
  have hwpos := windowN_pos es
  have hwle := windowN_le_three es
  simp only [mkHot, specPrev]
  by_cases hhp : havePrevB es = true
  · rw [if_pos hhp]
    have hL : 2 * windowN es ≤ (monthlyOrder es).length := (havePrevB_iff es).1 hhp
    by_cases hcond : 2 * windowN es ≤ p.2.length
    · rw [if_pos hcond]
    · rw [if_neg hcond]
      have h16 : (monthlyOrder es).length < 16 := by omega
      have hw1 : windowN es = 1 := windowN_one_of_lt16 es h16
      have htake : p.2.length - windowN es = 0 := by omega
      rw [htake, List.take_zero, List.drop_nil, natSum_nil]
  · rw [if_neg hhp]
    have hL : ¬(2 * windowN es ≤ (monthlyOrder es).length) := by
      intro hh
      exact hhp ((havePrevB_iff es).2 hh)
    have hcond : ¬(2 * windowN es ≤ p.2.length) := by omega
    rw [if_neg hcond]

theorem mem_hottestPre_iff (es : List Entry) (x : HotEntry) :
    x ∈ hottestPre es ↔
      (∃ p ∈ wordsGte10Sorted es,
        x = mkHot (windowN es) (havePrevB es) p ∧ 0 < x.delta) := by
  unfold hottestPre
  rw [mem_jsSort, List.mem_filter]
  constructor
  · rintro ⟨hmem, hd⟩
    obtain ⟨p, hp, hxp⟩ := List.mem_map.1 hmem
    exact ⟨p, hp, hxp.symm, by simpa using hd⟩
  · rintro ⟨p, hp, hxp, hd⟩
    exact ⟨List.mem_map.2 ⟨p, hp, hxp.symm⟩, by simpa using hd⟩

/-- C3: the hottest-ranking contract — with
`windowN = clamp(floor(monthCount / 8), 1, 3)`, every entry of the
hottest list has `delta = recentSum - prevSum` exactly with
`recentSum` the sum of the last `windowN` months of the dropped series
and `prevSum` as in the spec (0 unless `2 * windowN` months of the
dropped series are available), only positive deltas are kept, the list
is sorted descending by delta and capped at 50 entries; before the cap
it holds exactly the eligible words with positive delta. -/
theorem hottest_contract (es : List Entry) :
    (∀ x ∈ hottest es, 0 < x.delta ∧
        x.delta = (x.recent : Int) - (x.prev : Int) ∧
        x.recent = natSum (x.series.drop (x.series.length - windowN es)) ∧
        x.prev = specPrev es x.series) ∧
    (hottest es).Pairwise (fun a b => b.delta ≤ a.delta) ∧
    (hottest es).length ≤ 50 ∧
    windowN es = Nat.min 3 (Nat.max 1 ((monthlyOrder es).length / 8)) ∧
    (∀ p ∈ wordsGte10Sorted es, 0 < (mkHot (windowN es) (havePrevB es) p).delta →
        mkHot (windowN es) (havePrevB es) p ∈ hottestPre es) ∧
    (∀ x ∈ hottestPre es, x ∈ hottest es ∨ (hottest es).length = 50) ∧
    (∀ x ∈ hottestPre es, ∃ p ∈ wordsGte10Sorted es,
        x = mkHot (windowN es) (havePrevB es) p ∧ 0 < x.delta) := by
  refine ⟨?_, ?_, ?_, windowN_eq es, ?_, ?_, fun x hx => (mem_hottestPre_iff es x).1 hx⟩
  · intro x hx
    have hxpre : x ∈ hottestPre es := List.mem_of_mem_take hx
    obtain ⟨p, hp, hxp, hd⟩ := (mem_hottestPre_iff es x).1 hxpre
    have hpw : p ∈ wordsGte10 es := (mem_jsSort _).1 hp
    refine ⟨hd, ?_, ?_, ?_⟩
    · rw [hxp]
      simp [mkHot]
    · rw [hxp]
      simp [mkHot]
    · rw [hxp]
      have := mkHot_prev_eq_specPrev es p hpw
      rw [this]
      have hser : (mkHot (windowN es) (havePrevB es) p).series = p.2 := by
        simp [mkHot]
      rw [hser]
  · have hpw := pairwise_jsSort (fun a b : HotEntry => decide (b.delta ≤ a.delta))
      (fun a b => by
        rcases Int.le_total b.delta a.delta with h | h <;> simp [h])
      (fun a b c h1 h2 => by
        simp only [decide_eq_true_eq] at h1 h2 ⊢
        omega)
      (((wordsGte10Sorted es).map (mkHot (windowN es) (havePrevB es))).filter
        (fun h => 0 < h.delta))
    have hpre : (hottestPre es).Pairwise (fun a b => b.delta ≤ a.delta) := by
      apply List.Pairwise.imp _ hpw
      intro a b h
      simpa using h
    exact hpre.sublist (List.take_sublist 50 _)
  · exact List.length_take_le 50 _
  · intro p hp hd
    rw [mem_hottestPre_iff]
    exact ⟨p, hp, rfl, hd⟩
  · intro x hx
    unfold hottest
    by_cases hlen : (hottestPre es).length ≤ 50
    · left
      rw [List.take_of_length_le hlen]
      exact hx
    · right
      rw [List.length_take]
      exact inf_eq_left.2 (by omega)

/-- Witness for C3 on `demoB`: the single hottest entry has positive
delta equal to recent − prev. -/
theorem hottest_contract_witness :
    0 < (⟨"zebra".toList, 6, 0, 6, [6]⟩ : HotEntry).delta ∧
    (⟨"zebra".toList, 6, 0, 6, [6]⟩ : HotEntry).delta
      = (((⟨"zebra".toList, 6, 0, 6, [6]⟩ : HotEntry).recent : Int)
        - ((⟨"zebra".toList, 6, 0, 6, [6]⟩ : HotEntry).prev : Int)) ∧
    (⟨"zebra".toList, 6, 0, 6, [6]⟩ : HotEntry).recent
      = natSum ((⟨"zebra".toList, 6, 0, 6, [6]⟩ : HotEntry).series.drop
          ((⟨"zebra".toList, 6, 0, 6, [6]⟩ : HotEntry).series.length - windowN demoB)) ∧
    (⟨"zebra".toList, 6, 0, 6, [6]⟩ : HotEntry).prev
      = specPrev demoB (⟨"zebra".toList, 6, 0, 6, [6]⟩ : HotEntry).series :=
  (hottest_contract demoB).1 ⟨"zebra".toList, 6, 0, 6, [6]⟩ (by decide)

/-! ## Normalizer idempotence infrastructure -/

theorem jsWs_not_word {c : Char} (h : jsWs c = true) : isWordCharJs c = false := by
  simp only [jsWs, Bool.or_eq_true, decide_eq_true_eq] at h
  rcases h with ((((((h | h) | h) | h) | h) | h) | h) | h <;> subst h <;> decide

theorem jsWs_not_hash {c : Char} (h : jsWs c = true) : ¬(c = '#') := by
  simp only [jsWs, Bool.or_eq_true, decide_eq_true_eq] at h
  rcases h with ((((((h | h) | h) | h) | h) | h) | h) | h <;> subst h <;> decide

theorem dropWhile_ws_all {b : List Char} (hb : b.all jsWs = true) :
    b.dropWhile jsWs = [] := by
  induction b with
  | nil => rfl
  | cons c r ih =>
    simp only [List.all_cons, Bool.and_eq_true] at hb
    simp [List.dropWhile_cons, hb.1, ih hb.2]

theorem takeWhile_hash_ws {b : List Char} (hb : b.all jsWs = true) :
    b.takeWhile (fun c => c = '#') = [] := by
  cases b with
  | nil => rfl
  | cons c r =>
    simp only [List.all_cons, Bool.and_eq_true] at hb
    have := jsWs_not_hash hb.1
    simp [List.takeWhile_cons, decide_eq_false this]

theorem dropWhile_ws_prepend {a m : List Char} (ha : a.all jsWs = true) :
    (a ++ m).dropWhile jsWs = m.dropWhile jsWs := by
  apply List.dropWhile_append_of_pos
  intro c hc
  exact (List.all_eq_true.1 ha) c hc

theorem dropWhile_append_ne_nil {p : Char → Bool} {m b : List Char}
    (h : m.dropWhile p ≠ []) : (m ++ b).dropWhile p = m.dropWhile p ++ b := by
  rw [List.dropWhile_append]
  simp only [List.isEmpty_iff]
  rw [if_neg h]

theorem takeWhile_append_empty {p : Char → Bool} {m b : List Char}
    (h : b.takeWhile p = []) : (m ++ b).takeWhile p = m.takeWhile p := by
  rw [List.takeWhile_append]
  by_cases hl : (m.takeWhile p).length = m.length
  · rw [if_pos hl, h]
    have hmt : m.takeWhile p = m := by
      have hsub := List.takeWhile_sublist p (l := m)
      exact List.Sublist.eq_of_length hsub hl
    simp [hmt]
  · rw [if_neg hl]

theorem ciStarts_append {pat m r b : List Char} (h : ciStarts pat m = some r) :
    ciStarts pat (m ++ b) = some (r ++ b) := by
  induction pat generalizing m r with
  | nil =>
    simp only [ciStarts, Option.some.injEq] at h ⊢
    rw [h]
  | cons p ps ih =>
    cases m with
    | nil => simp [ciStarts] at h
    | cons c cs =>
      simp only [ciStarts] at h ⊢
      by_cases hc : Char.toLower c = p
      · rw [if_pos hc] at h ⊢
        exact ih h
      · rw [if_neg hc] at h
        exact Option.noConfusion h

theorem ciStarts_nil_none {p : Char} {ps : List Char} :
    ciStarts (p :: ps) [] = none := rfl

theorem headIsWord_append_ws {r b : List Char} (hr : headIsWord r = false)
    (hb : b.all jsWs = true) : headIsWord (r ++ b) = false := by
  cases r with
  | nil =>
    cases b with
    | nil => rfl
    | cons c t =>
      simp only [List.all_cons, Bool.and_eq_true] at hb
      simp [headIsWord, jsWs_not_word hb.1]
  | cons c t => simpa [headIsWord] using hr

theorem splitNl_ne_nil (t : List Char) : splitNl t ≠ [] := by
  induction t with
  | nil => simp [splitNl]
  | cons c r ih =>
    by_cases hc : c = '\n'
    · subst hc
      simp [splitNl]
    · have : splitNl (c :: r) = match splitNl r with
        | [] => [[c]]
        | l :: ls => (c :: l) :: ls := by
        conv_lhs => rw [splitNl.eq_def]
        cases r with
        | nil => simp [hc]
        | cons d r' =>
          by_cases hd : d = '\n' <;> simp [hc]
      rw [this]
      cases hs : splitNl r with
      | nil => simp
      | cons l ls => simp

theorem splitNl_cons_nl (r : List Char) : splitNl ('\n' :: r) = [] :: splitNl r := rfl

theorem splitNl_cons_ne {c : Char} (hc : ¬(c = '\n')) (r : List Char) :
    splitNl (c :: r) = match splitNl r with
      | [] => [[c]]
      | l :: ls => (c :: l) :: ls := by
  conv_lhs => rw [splitNl.eq_def]
  cases r with
  | nil => simp [hc]
  | cons d r' =>
    by_cases hd : d = '\n' <;> simp [hc]

theorem joinNl_splitNl (t : List Char) : joinNl (splitNl t) = t := by
  induction t with
  | nil => rfl
  | cons c r ih =>
    by_cases hc : c = '\n'
    · subst hc
      rw [splitNl_cons_nl]
      cases hs : splitNl r with
      | nil => exact absurd hs (splitNl_ne_nil r)
      | cons l ls =>
        show joinNl ([] :: l :: ls) = '\n' :: r
        rw [show joinNl ([] :: l :: ls) = [] ++ '\n' :: joinNl (l :: ls) from rfl]
        rw [← hs, ih]
        rfl
    · rw [splitNl_cons_ne hc]
      cases hs : splitNl r with
      | nil => exact absurd hs (splitNl_ne_nil r)
      | cons l ls =>
        rw [hs] at ih
        cases ls with
        | nil =>
          show c :: l = c :: r
          have : joinNl [l] = l := rfl
          rw [this] at ih
          rw [ih]
        | cons l2 ls2 =>
          show c :: (l ++ '\n' :: joinNl (l2 :: ls2)) = c :: r
          have : joinNl (l :: l2 :: ls2) = l ++ '\n' :: joinNl (l2 :: ls2) := rfl
          rw [this] at ih
          rw [ih]

theorem no_nl_in_splitNl (t : List Char) : ∀ l ∈ splitNl t, '\n' ∉ l := by
  induction t with
  | nil =>
    intro l hl
    simp [splitNl] at hl
    simp [hl]
  | cons c r ih =>
    by_cases hc : c = '\n'
    · subst hc
      rw [splitNl_cons_nl]
      intro l hl
      rcases List.mem_cons.1 hl with rfl | hl'
      · simp
      · exact ih l hl'
    · rw [splitNl_cons_ne hc]
      cases hs : splitNl r with
      | nil => exact absurd hs (splitNl_ne_nil r)
      | cons h t' =>
        intro l hl
        rcases List.mem_cons.1 hl with rfl | hl'
        · intro hmem
          rcases List.mem_cons.1 hmem with heq | hmem'
          · exact hc heq.symm
          · exact ih h (by rw [hs]; simp) hmem'
        · exact ih l (by rw [hs]; exact List.mem_cons_of_mem _ hl')

theorem splitNl_joinNl (ls : List (List Char)) (hne : ls ≠ [])
    (hnl : ∀ l ∈ ls, '\n' ∉ l) : splitNl (joinNl ls) = ls := by
  induction ls with
  | nil => exact absurd rfl hne
  | cons l rest ih =>
    cases rest with
    | nil =>
      show splitNl (joinNl [l]) = [l]
      have hj : joinNl [l] = l := rfl
      rw [hj]
      have hlnl : '\n' ∉ l := hnl l (by simp)
      clear hnl hne ih hj
      induction l with
      | nil => rfl
      | cons c r ihl =>
        have hc : ¬(c = '\n') := fun hh => hlnl (by simp [hh])
        rw [splitNl_cons_ne hc]
        rw [ihl (fun hh => hlnl (List.mem_cons_of_mem _ hh))]
    | cons l2 rest2 =>
      have hj : joinNl (l :: l2 :: rest2) = l ++ '\n' :: joinNl (l2 :: rest2) := rfl
      rw [hj]
      have hrec : splitNl (joinNl (l2 :: rest2)) = l2 :: rest2 :=
        ih (by simp) (fun x hx => hnl x (List.mem_cons_of_mem _ hx))
      have hlnl : '\n' ∉ l := hnl l (by simp)
      clear hj ih hne hnl
      induction l with
      | nil =>
        show splitNl ('\n' :: joinNl (l2 :: rest2)) = [] :: l2 :: rest2
        rw [splitNl_cons_nl, hrec]
      | cons c r ihl =>
        have hc : ¬(c = '\n') := fun hh => hlnl (by simp [hh])
        show splitNl (c :: (r ++ '\n' :: joinNl (l2 :: rest2))) = (c :: r) :: l2 :: rest2
        rw [splitNl_cons_ne hc]
        rw [ihl (fun hh => hlnl (List.mem_cons_of_mem _ hh))]

theorem splitNl_append_nl_mid (Y z : List Char) :
    splitNl (Y ++ '\n' :: z) = splitNl Y ++ splitNl z := by
  induction Y with
  | nil => rfl
  | cons c r ih =>
    by_cases hc : c = '\n'
    · subst hc
      show splitNl ('\n' :: (r ++ '\n' :: z)) = splitNl ('\n' :: r) ++ splitNl z
      rw [splitNl_cons_nl, splitNl_cons_nl, ih]
      rfl
    · show splitNl (c :: (r ++ '\n' :: z)) = splitNl (c :: r) ++ splitNl z
      rw [splitNl_cons_ne hc, splitNl_cons_ne hc, ih]
      cases hs : splitNl r with
      | nil => exact absurd hs (splitNl_ne_nil r)
      | cons h t' => simp

theorem splitNl_append_nl (a : List Char) : splitNl (a ++ ['\n']) = splitNl a ++ [[]] := by
  have := splitNl_append_nl_mid a []
  simpa using this

theorem fidx_none_of_all {α : Type} {p : α → Bool} {L : List α}
    (h : ∀ x ∈ L, p x = false) : ∀ i, List.findIdx? p L i = none := by
  induction L with
  | nil => intro i; simp [List.findIdx?_nil]
  | cons x xs ih =>
    intro i
    rw [List.findIdx?_cons, h x (by simp)]
    simp only [Bool.false_eq_true, if_false]
    exact ih (fun y hy => h y (List.mem_cons_of_mem _ hy)) (i + 1)

theorem all_of_fidx_none {α : Type} {p : α → Bool} {L : List α} :
    ∀ i, List.findIdx? p L i = none → ∀ x ∈ L, p x = false := by
  induction L with
  | nil => intro i _ x hx; simp at hx
  | cons y ys ih =>
    intro i h x hx
    rcases List.mem_cons.1 hx with rfl | hx'
    · cases hpy : p x
      · rfl
      · rw [List.findIdx?_cons, if_pos hpy] at h; exact Option.noConfusion h
    · rw [List.findIdx?_cons] at h
      by_cases hp : p y = true
      · rw [if_pos hp] at h; exact Option.noConfusion h
      · rw [if_neg hp] at h; exact ih (i + 1) h x hx'

theorem fidx_some_ge {α : Type} {p : α → Bool} {L : List α} :
    ∀ i k, List.findIdx? p L i = some k → i ≤ k := by
  induction L with
  | nil => intro i k h; simp [List.findIdx?_nil] at h
  | cons y ys ih =>
    intro i k h
    rw [List.findIdx?_cons] at h
    by_cases hp : p y = true
    · rw [if_pos hp] at h; exact le_of_eq (Option.some.inj h)
    · rw [if_neg hp] at h
      have := ih (i + 1) k h
      omega

theorem fidx_take_all_false {α : Type} {p : α → Bool} {L : List α} :
    ∀ i k, List.findIdx? p L i = some k → ∀ x ∈ L.take (k - i), p x = false := by
  induction L with
  | nil => intro i k h; simp [List.findIdx?_nil] at h
  | cons y ys ih =>
    intro i k h x hx
    rw [List.findIdx?_cons] at h
    by_cases hp : p y = true
    · rw [if_pos hp] at h
      have hik : i = k := Option.some.inj h
      subst hik
      simp at hx
    · rw [if_neg hp] at h
      have hik : i + 1 ≤ k := fidx_some_ge (i + 1) k h
      have htk : (y :: ys).take (k - i) = y :: ys.take (k - (i + 1)) := by
        have harith : k - i = (k - (i + 1)) + 1 := by omega
        rw [harith, List.take_succ_cons]
      rw [htk] at hx
      rcases List.mem_cons.1 hx with rfl | hx'
      · cases hpy : p x
        · rfl
        · exact absurd hpy hp
      · exact ih (i + 1) k h x hx'

theorem collapseT_nl (r : List Char) :
    collapseNlAux true ('\n' :: r) = collapseNlAux true r := rfl

theorem collapseT_cons {c : Char} (hc : ¬(c = '\n')) (r : List Char) :
    collapseNlAux true (c :: r) = c :: collapseNlAux false r := by
  conv_lhs => rw [collapseNlAux.eq_def]
  simp [hc]

theorem collapseF_nlnl (r : List Char) :
    collapseNlAux false ('\n' :: '\n' :: r) = '\n' :: '\n' :: collapseNlAux true r := rfl

theorem collapseF_cons {c : Char} (hc : ¬(c = '\n')) (r : List Char) :
    collapseNlAux false (c :: r) = c :: collapseNlAux false r := by
  conv_lhs => rw [collapseNlAux.eq_def]
  cases r with
  | nil => simp [hc]
  | cons d r2 => by_cases hd : d = '\n' <;> simp [hc, hd]

theorem collapseF_nl_cons {d : Char} (hd : ¬(d = '\n')) (r : List Char) :
    collapseNlAux false ('\n' :: d :: r) = '\n' :: collapseNlAux false (d :: r) := by
  conv_lhs => rw [collapseNlAux.eq_def]
  simp [hd]

theorem collapseT_eq_dropNl (w : List Char) :
    collapseNlAux true w = collapseNlAux false (w.dropWhile (fun c => c = '\n')) := by
  induction w with
  | nil => rfl
  | cons c r ih =>
    by_cases hc : c = '\n'
    · subst hc
      rw [collapseT_nl, ih]
      have hdw : ('\n' :: r).dropWhile (fun c => c = '\n') = r.dropWhile (fun c => c = '\n') := by
        rw [List.dropWhile_cons]; simp
      rw [hdw]
    · rw [collapseT_cons hc]
      have hdw : (c :: r).dropWhile (fun c => c = '\n') = c :: r := by
        rw [List.dropWhile_cons]; simp [hc]
      rw [hdw, collapseF_cons hc]

theorem splitNl_dropNl_sublist (w : List Char) :
    List.Sublist (splitNl (w.dropWhile (fun c => c = '\n'))) (splitNl w) := by
  induction w with
  | nil => exact List.Sublist.refl _
  | cons c r ih =>
    by_cases hc : c = '\n'
    · subst hc
      have hdw : ('\n' :: r).dropWhile (fun c => c = '\n') = r.dropWhile (fun c => c = '\n') := by
        rw [List.dropWhile_cons]; simp
      rw [hdw, splitNl_cons_nl]
      exact ih.cons []
    · have hdw : (c :: r).dropWhile (fun c => c = '\n') = c :: r := by
        rw [List.dropWhile_cons]; simp [hc]
      rw [hdw]

theorem splitNl_head_struct (z : List Char) :
    ∃ rest, splitNl z = (z.takeWhile (fun c => ¬(c = '\n'))) :: rest := by
  induction z with
  | nil => exact ⟨[], rfl⟩
  | cons c r ih =>
    by_cases hc : c = '\n'
    · subst hc
      refine ⟨splitNl r, ?_⟩
      rw [splitNl_cons_nl]
      congr 1
    · obtain ⟨rest, hrest⟩ := ih
      refine ⟨rest, ?_⟩
      rw [splitNl_cons_ne hc, hrest, List.takeWhile_cons]
      simp [hc]

theorem collapseF_takeWhile (X : List Char) :
    (collapseNlAux false X).takeWhile (fun c => ¬(c = '\n')) =
      X.takeWhile (fun c => ¬(c = '\n')) := by
  induction X with
  | nil => rfl
  | cons c r ih =>
    by_cases hc : c = '\n'
    · subst hc
      cases r with
      | nil => rfl
      | cons d r2 =>
        by_cases hd : d = '\n'
        · subst hd
          rw [collapseF_nlnl, List.takeWhile_cons, List.takeWhile_cons]
          simp
        · rw [collapseF_nl_cons hd, List.takeWhile_cons, List.takeWhile_cons]
          simp
    · simp only [decide_not] at ih
      rw [collapseF_cons hc]
      simp [List.takeWhile_cons, hc, ih]

theorem collapse_lines_sublist_aux :
    ∀ n Y, Y.length ≤ n → List.Sublist (splitNl (collapseNlAux false Y)) (splitNl Y) := by
  intro n
  induction n with
  | zero =>
    intro Y hY
    have hnil : Y = [] := List.length_eq_zero.1 (Nat.le_zero.1 hY)
    subst hnil
    exact List.Sublist.refl _
  | succ n ih =>
    intro Y hY
    cases Y with
    | nil => exact List.Sublist.refl _
    | cons c r =>
      by_cases hc : c = '\n'
      · subst hc
        cases r with
        | nil => exact List.Sublist.refl _
        | cons d r2 =>
          by_cases hd : d = '\n'
          · subst hd
            rw [collapseF_nlnl, collapseT_eq_dropNl]
            rw [splitNl_cons_nl, splitNl_cons_nl, splitNl_cons_nl, splitNl_cons_nl]
            refine List.Sublist.cons₂ _ (List.Sublist.cons₂ _ ?_)
            have hl1 : (r2.dropWhile (fun c => c = '\n')).length ≤ n :=
              le_trans (List.dropWhile_sublist _).length_le (by
                simp only [List.length_cons] at hY; omega)
            exact (ih _ hl1).trans (splitNl_dropNl_sublist r2)
          · rw [collapseF_nl_cons hd, splitNl_cons_nl, splitNl_cons_nl]
            refine List.Sublist.cons₂ _ ?_
            apply ih
            simp only [List.length_cons] at hY ⊢
            omega
      · rw [collapseF_cons hc]
        obtain ⟨restZ, hZ⟩ := splitNl_head_struct (collapseNlAux false r)
        obtain ⟨restR, hR⟩ := splitNl_head_struct r
        have hsub : List.Sublist (splitNl (collapseNlAux false r)) (splitNl r) := by
          apply ih
          simp only [List.length_cons] at hY
          omega
        rw [hZ, hR, collapseF_takeWhile] at hsub
        have htail : List.Sublist restZ restR := List.cons_sublist_cons.1 hsub
        have hZ' : splitNl (c :: collapseNlAux false r) =
            (c :: (r.takeWhile (fun c => ¬(c = '\n')))) :: restZ := by
          rw [splitNl_cons_ne hc, hZ, collapseF_takeWhile]
        have hR' : splitNl (c :: r) =
            (c :: (r.takeWhile (fun c => ¬(c = '\n')))) :: restR := by
          rw [splitNl_cons_ne hc, hR]
        rw [hZ', hR']
        exact List.Sublist.cons₂ _ htail

theorem collapse_lines_sublist (Y : List Char) :
    List.Sublist (splitNl (collapseNl Y)) (splitNl Y) :=
  collapse_lines_sublist_aux Y.length Y (le_refl _)

theorem dropWhile_head_not {α : Type} (p : α → Bool) (l : List α) :
    l.dropWhile p = [] ∨ ∃ c r, l.dropWhile p = c :: r ∧ p c = false := by
  induction l with
  | nil => left; rfl
  | cons x xs ih =>
    by_cases hp : p x = true
    · rw [List.dropWhile_cons, if_pos hp]
      rcases ih with h0 | ⟨c, r, hcr, hpc⟩
      · left; exact h0
      · right; exact ⟨c, r, hcr, hpc⟩
    · right
      refine ⟨x, xs, ?_, ?_⟩
      · rw [List.dropWhile_cons, if_neg hp]
      · cases hpx : p x
        · rfl
        · exact absurd hpx hp

theorem not_nl_starts {Z : List Char}
    (hZ : Z = [] ∨ ∃ d r, Z = d :: r ∧ ¬(d = '\n')) (t : List Char) :
    ¬ List.IsPrefix ('\n' :: t) Z := by
  intro hp
  rcases hZ with rfl | ⟨d, r, rfl, hd⟩
  · exact absurd (List.prefix_nil.1 hp) (by simp)
  · exact hd ((List.cons_prefix_cons.1 hp).1).symm

theorem collapse_no_triple_aux :
    ∀ n Y, Y.length ≤ n → ¬ List.IsInfix ['\n', '\n', '\n'] (collapseNlAux false Y) := by
  intro n
  induction n with
  | zero =>
    intro Y hY htr
    have hnil : Y = [] := List.length_eq_zero.1 (Nat.le_zero.1 hY)
    subst hnil
    have h0 : collapseNlAux false ([] : List Char) = [] := rfl
    rw [h0] at htr
    exact absurd (List.infix_nil.1 htr) (by simp)
  | succ n ih =>
    intro Y hY htr
    cases Y with
    | nil =>
      have h0 : collapseNlAux false ([] : List Char) = [] := rfl
      rw [h0] at htr
      exact absurd (List.infix_nil.1 htr) (by simp)
    | cons c r =>
      by_cases hc : c = '\n'
      · subst hc
        cases r with
        | nil =>
          have h0 : collapseNlAux false ['\n'] = ['\n'] := rfl
          rw [h0] at htr
          rcases List.infix_cons_iff.1 htr with hp | hi
          · have h2 := (List.cons_prefix_cons.1 hp).2
            exact absurd (List.prefix_nil.1 h2) (by simp)
          · exact absurd (List.infix_nil.1 hi) (by simp)
        | cons d r2 =>
          by_cases hd : d = '\n'
          · subst hd
            rw [collapseF_nlnl, collapseT_eq_dropNl] at htr
            have hZh : collapseNlAux false (r2.dropWhile (fun c => c = '\n')) = [] ∨
                ∃ e r', collapseNlAux false (r2.dropWhile (fun c => c = '\n')) = e :: r' ∧
                  ¬(e = '\n') := by
              rcases dropWhile_head_not (fun c => c = '\n') r2 with h0 | ⟨e, r', he, hpe⟩
              · left; rw [h0]; rfl
              · right
                have hne : ¬(e = '\n') := of_decide_eq_false hpe
                exact ⟨e, collapseNlAux false r', by rw [he, collapseF_cons hne], hne⟩
            rcases List.infix_cons_iff.1 htr with hp | hrest
            · have h2 := (List.cons_prefix_cons.1 hp).2
              have h3 := (List.cons_prefix_cons.1 h2).2
              exact not_nl_starts hZh [] h3
            · rcases List.infix_cons_iff.1 hrest with hp2 | hi
              · have h3 := (List.cons_prefix_cons.1 hp2).2
                exact not_nl_starts hZh ['\n'] h3
              · refine ih (r2.dropWhile (fun c => c = '\n')) ?_ hi
                have hlen := (List.dropWhile_sublist (l := r2) (fun c => c = '\n')).length_le
                simp only [List.length_cons] at hY
                omega
          · rw [collapseF_nl_cons hd] at htr
            rcases List.infix_cons_iff.1 htr with hp | hi
            · have h2 := (List.cons_prefix_cons.1 hp).2
              rw [collapseF_cons hd] at h2
              exact hd ((List.cons_prefix_cons.1 h2).1).symm
            · refine ih (d :: r2) ?_ hi
              simp only [List.length_cons] at hY ⊢
              omega
      · rw [collapseF_cons hc] at htr
        rcases List.infix_cons_iff.1 htr with hp | hi
        · exact hc ((List.cons_prefix_cons.1 hp).1).symm
        · refine ih r ?_ hi
          simp only [List.length_cons] at hY
          omega

theorem collapse_no_triple (Y : List Char) :
    ¬ List.IsInfix ['\n', '\n', '\n'] (collapseNl Y) :=
  collapse_no_triple_aux Y.length Y (le_refl _)

theorem trimJs_prefix_dw (l : List Char) :
    List.IsPrefix (trimJs l) (l.dropWhile jsWs) := by
  have h2 : List.IsSuffix ((l.dropWhile jsWs).reverse.dropWhile jsWs)
      (l.dropWhile jsWs).reverse :=
    ⟨(l.dropWhile jsWs).reverse.takeWhile jsWs, List.takeWhile_append_dropWhile _ _⟩
  rw [show trimJs l = ((l.dropWhile jsWs).reverse.dropWhile jsWs).reverse from rfl]
  rw [← List.reverse_suffix, List.reverse_reverse]
  exact h2

theorem trimJs_within (l : List Char) : List.IsInfix (trimJs l) l := by
  have h1 : List.IsSuffix (l.dropWhile jsWs) l :=
    ⟨l.takeWhile jsWs, List.takeWhile_append_dropWhile _ _⟩
  exact (trimJs_prefix_dw l).isInfix.trans h1.isInfix

theorem trimJs_decomp (l : List Char) :
    ∃ p q, p.all jsWs = true ∧ q.all jsWs = true ∧ l = p ++ (trimJs l ++ q) := by
  refine ⟨l.takeWhile jsWs, ((l.dropWhile jsWs).reverse.takeWhile jsWs).reverse, ?_, ?_, ?_⟩
  · rw [List.all_eq_true]; intro x hx; exact List.mem_takeWhile_imp hx
  · rw [List.all_reverse, List.all_eq_true]; intro x hx; exact List.mem_takeWhile_imp hx
  · conv_lhs => rw [← List.takeWhile_append_dropWhile jsWs l]
    congr 1
    calc l.dropWhile jsWs
        = (l.dropWhile jsWs).reverse.reverse := (List.reverse_reverse _).symm
      _ = (((l.dropWhile jsWs).reverse.takeWhile jsWs) ++
            ((l.dropWhile jsWs).reverse.dropWhile jsWs)).reverse := by
            rw [List.takeWhile_append_dropWhile]
      _ = ((l.dropWhile jsWs).reverse.dropWhile jsWs).reverse ++
            ((l.dropWhile jsWs).reverse.takeWhile jsWs).reverse := by
            rw [List.reverse_append]
      _ = trimJs l ++ ((l.dropWhile jsWs).reverse.takeWhile jsWs).reverse := rfl

theorem trimJs_head_not_ws {l : List Char} (h : ¬(trimJs l = [])) :
    ∃ e c', trimJs l = e :: c' ∧ jsWs e = false := by
  cases htl : trimJs l with
  | nil => exact absurd htl h
  | cons e c' =>
    refine ⟨e, c', rfl, ?_⟩
    have h3 := trimJs_prefix_dw l
    rw [htl] at h3
    obtain ⟨s, hs⟩ := h3
    rcases dropWhile_head_not jsWs l with h0 | ⟨c, r, hcr, hpc⟩
    · rw [h0] at hs
      exact absurd hs (by simp)
    · rw [hcr] at hs
      simp only [List.cons_append] at hs
      have h1 : e = c := (List.cons.inj hs).1
      rw [h1]
      exact hpc

theorem trimJs_last_not_ws {l : List Char} (h : ¬(trimJs l = [])) :
    ∃ c₀ d, trimJs l = c₀ ++ [d] ∧ jsWs d = false := by
  rcases dropWhile_head_not jsWs (l.dropWhile jsWs).reverse with h0 | ⟨d, r, hdr, hpd⟩
  · have hnil : trimJs l = [] := by
      rw [show trimJs l = ((l.dropWhile jsWs).reverse.dropWhile jsWs).reverse from rfl, h0]
      rfl
    exact absurd hnil h
  · refine ⟨r.reverse, d, ?_, hpd⟩
    rw [show trimJs l = ((l.dropWhile jsWs).reverse.dropWhile jsWs).reverse from rfl, hdr]
    rw [List.reverse_cons]

theorem no_triple_append_nl {c : List Char}
    (hnt : ¬ List.IsInfix ['\n', '\n', '\n'] c)
    (hlast : ∃ c₀ d, c = c₀ ++ [d] ∧ jsWs d = false) :
    ¬ List.IsInfix ['\n', '\n', '\n'] (c ++ ['\n']) := by
  intro htr
  obtain ⟨c₀, d, hc, hd⟩ := hlast
  obtain ⟨s, t, hst⟩ := htr
  rcases List.eq_nil_or_concat t with rfl | ⟨t', x, ht⟩
  · simp only [List.append_nil] at hst
    have hst' : (s ++ ['\n', '\n']) ++ ['\n'] = c ++ ['\n'] := by
      rw [← hst]; simp
    have h1 := (List.append_inj' hst' rfl).1
    have hceq : (s ++ ['\n']) ++ ['\n'] = c₀ ++ [d] := by
      rw [← hc, ← h1]; simp
    have h2 := (List.append_inj' hceq rfl).2
    have h3 : d = '\n' := ((List.cons.inj h2).1).symm
    rw [h3] at hd
    exact absurd hd (by decide)
  · rw [ht, List.concat_eq_append] at hst
    have hst' : (s ++ ['\n', '\n', '\n'] ++ t') ++ [x] = c ++ ['\n'] := by
      rw [← hst]; simp
    have h1 := (List.append_inj' hst' rfl).1
    exact hnt ⟨s, t', h1⟩

theorem collapse_id_of_no_triple_aux :
    ∀ n l, l.length ≤ n → ¬ List.IsInfix ['\n', '\n', '\n'] l →
      collapseNlAux false l = l := by
  intro n
  induction n with
  | zero =>
    intro l h _
    have hnil : l = [] := List.length_eq_zero.1 (Nat.le_zero.1 h)
    subst hnil
    rfl
  | succ n ih =>
    intro l hl hnt
    cases l with
    | nil => rfl
    | cons c r =>
      by_cases hc : c = '\n'
      · subst hc
        cases r with
        | nil => rfl
        | cons d r2 =>
          by_cases hd : d = '\n'
          · subst hd
            rw [collapseF_nlnl]
            cases r2 with
            | nil => rfl
            | cons e r3 =>
              by_cases he : e = '\n'
              · subst he
                exact absurd ⟨[], r3, rfl⟩ hnt
              · have hr3 : collapseNlAux false r3 = r3 :=
                  ih r3 (by simp only [List.length_cons] at hl; omega)
                    (fun htr => hnt (htr.trans
                      (List.IsSuffix.isInfix ⟨['\n', '\n', e], rfl⟩)))
                rw [collapseT_cons he, hr3]
          · have hr2 : collapseNlAux false r2 = r2 :=
              ih r2 (by simp only [List.length_cons] at hl; omega)
                (fun htr => hnt (htr.trans
                  (List.IsSuffix.isInfix ⟨['\n', d], rfl⟩)))
            rw [collapseF_nl_cons hd, collapseF_cons hd, hr2]
      · have hr : collapseNlAux false r = r :=
          ih r (by simp only [List.length_cons] at hl; omega)
            (fun htr => hnt (htr.trans (List.IsSuffix.isInfix ⟨[c], rfl⟩)))
        rw [collapseF_cons hc, hr]

theorem collapse_id_of_no_triple {l : List Char}
    (hnt : ¬ List.IsInfix ['\n', '\n', '\n'] l) : collapseNl l = l :=
  collapse_id_of_no_triple_aux l.length l (le_refl _) hnt

theorem trimJs_append_nl {c : List Char}
    (hhead : ∃ e c', c = e :: c' ∧ jsWs e = false)
    (hlast : ∃ c₀ d, c = c₀ ++ [d] ∧ jsWs d = false) :
    trimJs (c ++ ['\n']) = c := by
  obtain ⟨e, c', rfl, he⟩ := hhead
  obtain ⟨c₀, d, hc, hd⟩ := hlast
  rw [show trimJs ((e :: c') ++ ['\n']) =
    ((((e :: c') ++ ['\n']).dropWhile jsWs).reverse.dropWhile jsWs).reverse from rfl]
  have h1 : ((e :: c') ++ ['\n']).dropWhile jsWs = (e :: c') ++ ['\n'] := by
    rw [List.cons_append, List.dropWhile_cons, if_neg (by simp [he])]
  rw [h1]
  have h2 : ((e :: c') ++ ['\n']).reverse = '\n' :: (e :: c').reverse := by
    rw [List.reverse_append]
    rfl
  rw [h2, List.dropWhile_cons, if_pos (by decide)]
  have h3 : (e :: c').reverse = d :: c₀.reverse := by
    rw [hc, List.reverse_append]
    rfl
  rw [h3, List.dropWhile_cons, if_neg (by simp [hd]), ← h3, List.reverse_reverse]

theorem joinNl_append_single (A : List (List Char)) (x : List Char) (hA : A ≠ []) :
    joinNl (A ++ [x]) = joinNl A ++ '\n' :: x := by
  induction A with
  | nil => exact absurd rfl hA
  | cons a A' ih =>
    cases A' with
    | nil => rfl
    | cons b A'' =>
      have h1 : joinNl ((a :: b :: A'') ++ [x]) = a ++ '\n' :: joinNl ((b :: A'') ++ [x]) := rfl
      rw [h1, ih (by simp)]
      have h2 : joinNl (a :: b :: A'') = a ++ '\n' :: joinNl (b :: A'') := rfl
      rw [h2]
      simp

theorem splitNl_snoc_ne {c : Char} (hc : ¬(c = '\n')) :
    ∀ Y, ∃ init l0, splitNl Y = init ++ [l0] ∧
      splitNl (Y ++ [c]) = init ++ [l0 ++ [c]] := by
  intro Y
  induction Y with
  | nil =>
    refine ⟨[], [], rfl, ?_⟩
    rw [List.nil_append, splitNl_cons_ne hc]
    rfl
  | cons a Y' ih =>
    obtain ⟨init, l0, h1, h2⟩ := ih
    by_cases ha : a = '\n'
    · subst ha
      refine ⟨[] :: init, l0, ?_, ?_⟩
      · rw [splitNl_cons_nl, h1]
        rfl
      · show splitNl ('\n' :: (Y' ++ [c])) = ([] :: init) ++ [l0 ++ [c]]
        rw [splitNl_cons_nl, h2]
        rfl
    · cases init with
      | nil =>
        refine ⟨[], a :: l0, ?_, ?_⟩
        · rw [splitNl_cons_ne ha, h1]
          rfl
        · show splitNl (a :: (Y' ++ [c])) = [] ++ [(a :: l0) ++ [c]]
          rw [splitNl_cons_ne ha, h2]
          simp
      | cons i0 init' =>
        refine ⟨(a :: i0) :: init', l0, ?_, ?_⟩
        · rw [splitNl_cons_ne ha, h1]
          rfl
        · show splitNl (a :: (Y' ++ [c])) = ((a :: i0) :: init') ++ [l0 ++ [c]]
          rw [splitNl_cons_ne ha, h2]
          rfl

theorem lines_append_ws (q : List Char) :
    ∀ M, q.all jsWs = true → ∀ l ∈ splitNl M,
      ∃ l' ∈ splitNl (M ++ q), ∃ b, b.all jsWs = true ∧ l' = l ++ b := by
  induction q with
  | nil =>
    intro M _ l hl
    exact ⟨l, by simpa using hl, [], rfl, by simp⟩
  | cons c q2 ih =>
    intro M hq l hl
    simp only [List.all_cons, Bool.and_eq_true] at hq
    by_cases hc : c = '\n'
    · subst hc
      refine ⟨l, ?_, [], rfl, by simp⟩
      rw [splitNl_append_nl_mid]
      exact List.mem_append.2 (Or.inl hl)
    · obtain ⟨init, l0, h1, h2⟩ := splitNl_snoc_ne hc M
      have hM : M ++ c :: q2 = (M ++ [c]) ++ q2 := by simp
      rw [h1] at hl
      rcases List.mem_append.1 hl with hin | hlast
      · have hmem : l ∈ splitNl (M ++ [c]) := by
          rw [h2]
          exact List.mem_append.2 (Or.inl hin)
        obtain ⟨l', hl', b, hb, heq⟩ := ih (M ++ [c]) hq.2 l hmem
        refine ⟨l', ?_, b, hb, heq⟩
        rw [hM]
        exact hl'
      · have hleq : l = l0 := by simpa using hlast
        have hmem : l0 ++ [c] ∈ splitNl (M ++ [c]) := by
          rw [h2]
          exact List.mem_append.2 (Or.inr (by simp))
        obtain ⟨l', hl', b, hb, heq⟩ := ih (M ++ [c]) hq.2 (l0 ++ [c]) hmem
        refine ⟨l', ?_, c :: b, ?_, ?_⟩
        · rw [hM]
          exact hl'
        · simp [List.all_cons, hq.1, hb]
        · rw [heq, hleq]
          simp

theorem lines_prepend_ws (p : List Char) :
    ∀ M, p.all jsWs = true → ∀ l ∈ splitNl M,
      ∃ l' ∈ splitNl (p ++ M), ∃ a, a.all jsWs = true ∧ l' = a ++ l := by
  induction p with
  | nil =>
    intro M _ l hl
    exact ⟨l, by simpa using hl, [], rfl, by simp⟩
  | cons c p2 ih =>
    intro M hp l hl
    simp only [List.all_cons, Bool.and_eq_true] at hp
    obtain ⟨l', hl', a, ha, heq⟩ := ih M hp.2 l hl
    by_cases hc : c = '\n'
    · subst hc
      refine ⟨l', ?_, a, ha, heq⟩
      show l' ∈ splitNl ('\n' :: (p2 ++ M))
      rw [splitNl_cons_nl]
      exact List.mem_cons_of_mem _ hl'
    · obtain ⟨rest, hrest⟩ := splitNl_head_struct (p2 ++ M)
      rw [hrest] at hl'
      rcases List.mem_cons.1 hl' with hhead | htail
      · refine ⟨c :: l', ?_, c :: a, ?_, ?_⟩
        · show c :: l' ∈ splitNl (c :: (p2 ++ M))
          rw [splitNl_cons_ne hc, hrest, hhead]
          exact List.mem_cons_self _ _
        · simp [List.all_cons, hp.1, ha]
        · rw [heq, List.cons_append]
      · refine ⟨l', ?_, a, ha, heq⟩
        show l' ∈ splitNl (c :: (p2 ++ M))
        rw [splitNl_cons_ne hc, hrest]
        exact List.mem_cons_of_mem _ htail

theorem ciStarts_dropWhile_append {pat X r1 b : List Char}
    (hpat : ∃ p ps, pat = p :: ps)
    (h1 : ciStarts pat (X.dropWhile jsWs) = some r1) :
    ciStarts pat ((X ++ b).dropWhile jsWs) = some (r1 ++ b) := by
  obtain ⟨p, ps, rfl⟩ := hpat
  have hne : ¬(X.dropWhile jsWs = []) := by
    intro h0
    rw [h0, ciStarts_nil_none] at h1
    exact Option.noConfusion h1
  rw [dropWhile_append_ne_nil hne]
  exact ciStarts_append h1

theorem matchLinkToWiki_elim {l : List Char} (h : matchLinkToWiki l = true) :
    ∃ r r1 r2 w, l = '[' :: '[' :: r ∧
      ciStarts "link".toList (r.dropWhile jsWs) = some r1 ∧
      ciStarts "to".toList (r1.dropWhile jsWs) = some r2 ∧
      r2.dropWhile jsWs = ']' :: ']' :: w := by
  rw [matchLinkToWiki.eq_def] at h
  split at h
  · rename_i r
    split at h
    · simp at h
    · rename_i r1 h1
      split at h
      · simp at h
      · rename_i r2 h2
        split at h
        · rename_i w hw
          exact ⟨r, r1, r2, w, rfl, h1, h2, hw⟩
        · simp at h
  · simp at h

theorem matchLinkToWiki_append_ws {t b : List Char} (hb : b.all jsWs = true)
    (h : matchLinkToWiki t = true) : matchLinkToWiki (t ++ b) = true := by
  obtain ⟨r, r1, r2, w, rfl, h1, h2, hw⟩ := matchLinkToWiki_elim h
  have h1' : ciStarts "link".toList ((r ++ b).dropWhile jsWs) = some (r1 ++ b) :=
    ciStarts_dropWhile_append ⟨'l', ['i', 'n', 'k'], by decide⟩ h1
  have h2' : ciStarts "to".toList ((r1 ++ b).dropWhile jsWs) = some (r2 ++ b) :=
    ciStarts_dropWhile_append ⟨'t', ['o'], by decide⟩ h2
  have hw' : (r2 ++ b).dropWhile jsWs = ']' :: ']' :: (w ++ b) := by
    have hne : ¬(r2.dropWhile jsWs = []) := by rw [hw]; simp
    rw [dropWhile_append_ne_nil hne, hw]
    rfl
  show matchLinkToWiki ('[' :: '[' :: (r ++ b)) = true
  rw [matchLinkToWiki.eq_def]
  simp only [h1', h2', hw']

theorem containsLinkToWiki_pad {l a b : List Char} (ha : a.all jsWs = true)
    (hb : b.all jsWs = true) (h : containsLinkToWiki l = true) :
    containsLinkToWiki (a ++ (l ++ b)) = true := by
  unfold containsLinkToWiki at h ⊢
  rw [List.any_eq_true] at h ⊢
  obtain ⟨t, ht, hm⟩ := h
  obtain ⟨s, hs⟩ := (List.mem_tails _ _).1 ht
  refine ⟨t ++ b, ?_, matchLinkToWiki_append_ws hb hm⟩
  rw [List.mem_tails]
  exact ⟨a ++ s, by rw [← hs]; simp⟩

theorem isLinkToHeading_elim {l : List Char} (h : isLinkToHeading l = true) :
    ∃ r r1, ¬(6 < ((l.dropWhile jsWs).takeWhile (· = '#')).length) ∧
      ciStarts "link".toList
        (((l.dropWhile jsWs).drop
          ((l.dropWhile jsWs).takeWhile (· = '#')).length).dropWhile jsWs) = some r ∧
      ciStarts "to".toList (r.dropWhile jsWs) = some r1 ∧
      headIsWord r1 = false := by
  simp only [isLinkToHeading] at h
  split at h
  · simp at h
  · rename_i h6
    split at h
    · simp at h
    · rename_i r h1
      split at h
      · simp at h
      · rename_i r1 h2
        exact ⟨r, r1, h6, h1, h2, by simpa using h⟩

theorem isLinkToHeading_pad {l a b : List Char} (ha : a.all jsWs = true)
    (hb : b.all jsWs = true) (h : isLinkToHeading l = true) :
    isLinkToHeading (a ++ (l ++ b)) = true := by
  obtain ⟨r, r1, h6, h1, h2, hw⟩ := isLinkToHeading_elim h
  have hdl : ¬(l.dropWhile jsWs = []) := by
    intro h0
    rw [h0] at h1
    simp only [List.drop_nil, List.dropWhile_nil] at h1
    rw [(by decide : ciStarts "link".toList ([] : List Char) = none)] at h1
    exact Option.noConfusion h1
  have hk : ((l.dropWhile jsWs).takeWhile (· = '#')).length ≤ (l.dropWhile jsWs).length :=
    (List.takeWhile_sublist _).length_le
  have hdw : (a ++ (l ++ b)).dropWhile jsWs = l.dropWhile jsWs ++ b := by
    rw [dropWhile_ws_prepend ha, dropWhile_append_ne_nil hdl]
  have htw : (l.dropWhile jsWs ++ b).takeWhile (· = '#') =
      (l.dropWhile jsWs).takeWhile (· = '#') :=
    takeWhile_append_empty (takeWhile_hash_ws hb)
  have hdrop : (l.dropWhile jsWs ++ b).drop
      ((l.dropWhile jsWs).takeWhile (· = '#')).length =
      (l.dropWhile jsWs).drop ((l.dropWhile jsWs).takeWhile (· = '#')).length ++ b :=
    List.drop_append_of_le_length hk
  have h1' := ciStarts_dropWhile_append (b := b) ⟨'l', ['i', 'n', 'k'], by decide⟩ h1
  have h2' := ciStarts_dropWhile_append (b := b) ⟨'t', ['o'], by decide⟩ h2
  simp only [isLinkToHeading]
  rw [hdw, htw, if_neg h6, hdrop]
  simp only [h1', h2']
  simp [headIsWord_append_ws hw hb]

theorem isAreWeCloser_elim {l : List Char} (h : isAreWeCloser l = true) :
    ∃ r r1 r2, ¬(6 < ((l.dropWhile jsWs).takeWhile (· = '#')).length) ∧
      ciStarts "are".toList
        (((l.dropWhile jsWs).drop
          ((l.dropWhile jsWs).takeWhile (· = '#')).length).dropWhile jsWs) = some r ∧
      ciStarts "we".toList (r.dropWhile jsWs) = some r1 ∧
      ciStarts "closer".toList (r1.dropWhile jsWs) = some r2 ∧
      headIsWord r2 = false := by
  simp only [isAreWeCloser] at h
  split at h
  · simp at h
  · rename_i h6
    split at h
    · simp at h
    · rename_i r h1
      split at h
      · simp at h
      · rename_i r1 h2
        split at h
        · simp at h
        · rename_i r2 h3
          exact ⟨r, r1, r2, h6, h1, h2, h3, by simpa using h⟩

theorem isAreWeCloser_pad {l a b : List Char} (ha : a.all jsWs = true)
    (hb : b.all jsWs = true) (h : isAreWeCloser l = true) :
    isAreWeCloser (a ++ (l ++ b)) = true := by
  obtain ⟨r, r1, r2, h6, h1, h2, h3, hw⟩ := isAreWeCloser_elim h
  have hdl : ¬(l.dropWhile jsWs = []) := by
    intro h0
    rw [h0] at h1
    simp only [List.drop_nil, List.dropWhile_nil] at h1
    rw [(by decide : ciStarts "are".toList ([] : List Char) = none)] at h1
    exact Option.noConfusion h1
  have hk : ((l.dropWhile jsWs).takeWhile (· = '#')).length ≤ (l.dropWhile jsWs).length :=
    (List.takeWhile_sublist _).length_le
  have hdw : (a ++ (l ++ b)).dropWhile jsWs = l.dropWhile jsWs ++ b := by
    rw [dropWhile_ws_prepend ha, dropWhile_append_ne_nil hdl]
  have htw : (l.dropWhile jsWs ++ b).takeWhile (· = '#') =
      (l.dropWhile jsWs).takeWhile (· = '#') :=
    takeWhile_append_empty (takeWhile_hash_ws hb)
  have hdrop : (l.dropWhile jsWs ++ b).drop
      ((l.dropWhile jsWs).takeWhile (· = '#')).length =
      (l.dropWhile jsWs).drop ((l.dropWhile jsWs).takeWhile (· = '#')).length ++ b :=
    List.drop_append_of_le_length hk
  have h1' := ciStarts_dropWhile_append (b := b) ⟨'a', ['r', 'e'], by decide⟩ h1
  have h2' := ciStarts_dropWhile_append (b := b) ⟨'w', ['e'], by decide⟩ h2
  have h3' := ciStarts_dropWhile_append (b := b)
    ⟨'c', ['l', 'o', 's', 'e', 'r'], by decide⟩ h3
  simp only [isAreWeCloser]
  rw [hdw, htw, if_neg h6, hdrop]
  simp only [h1', h2', h3']
  simp [headIsWord_append_ws hw hb]

theorem match100Days_elim {l : List Char} (h : match100Days l = true) :
    ∃ r r1, l = '1' :: '0' :: '0' :: r ∧
      ciStarts "days".toList (r.dropWhile jsWs) = some r1 ∧
      headIsWord r1 = false := by
  rw [match100Days.eq_def] at h
  split at h
  · rename_i r
    split at h
    · simp at h
    · rename_i r1 h1
      exact ⟨r, r1, rfl, h1, by simpa using h⟩
  · simp at h

theorem match100Days_append_ws {t b : List Char} (hb : b.all jsWs = true)
    (h : match100Days t = true) : match100Days (t ++ b) = true := by
  obtain ⟨r, r1, rfl, h1, hw⟩ := match100Days_elim h
  have h1' := ciStarts_dropWhile_append (b := b) ⟨'d', ['a', 'y', 's'], by decide⟩ h1
  show match100Days ('1' :: '0' :: '0' :: (r ++ b)) = true
  rw [match100Days.eq_def]
  simp only [h1']
  simp [headIsWord_append_ws hw hb]

theorem contains100DaysAux_cons (g : Bool) (x : Char) (xs : List Char) :
    contains100DaysAux g (x :: xs) =
      ((!g && match100Days (x :: xs)) || contains100DaysAux (isWordCharJs x) xs) := rfl

theorem contains100DaysAux_split {l : List Char} :
    ∀ {f : Bool}, contains100DaysAux f l = true →
    ∃ u v, l = u ++ v ∧ match100Days v = true ∧
      ((u = [] ∧ f = false) ∨ ∃ u' ch, u = u' ++ [ch] ∧ isWordCharJs ch = false) := by
  induction l with
  | nil => intro f h; simp [contains100DaysAux] at h
  | cons c r ih =>
    intro f h
    rw [contains100DaysAux_cons] at h
    rcases (Bool.or_eq_true _ _).mp h with h1 | h2
    · have hand := (Bool.and_eq_true _ _).mp h1
      have hf : f = false := by
        cases f
        · rfl
        · simp at hand
      exact ⟨[], c :: r, rfl, hand.2, Or.inl ⟨rfl, hf⟩⟩
    · obtain ⟨u, v, huv, hm, hbd⟩ := ih h2
      refine ⟨c :: u, v, by rw [huv, List.cons_append], hm, Or.inr ?_⟩
      rcases hbd with ⟨rfl, hfc⟩ | ⟨u', ch, rfl, hch⟩
      · exact ⟨[], c, by simp, hfc⟩
      · exact ⟨c :: u', ch, by simp, hch⟩

theorem contains100DaysAux_join :
    ∀ (u : List Char) {v : List Char} (f : Bool), match100Days v = true →
    ((u = [] ∧ f = false) ∨ ∃ u' ch, u = u' ++ [ch] ∧ isWordCharJs ch = false) →
    contains100DaysAux f (u ++ v) = true := by
  intro u
  induction u with
  | nil =>
    intro v f hm hbd
    have hf : f = false := by
      rcases hbd with ⟨_, hf⟩ | ⟨u', ch, habs, _⟩
      · exact hf
      · exact absurd habs (by simp)
    subst hf
    cases v with
    | nil => exact absurd hm (by decide)
    | cons x xs =>
      rw [List.nil_append, contains100DaysAux_cons]
      simp [hm]
  | cons c u2 ih =>
    intro v f hm hbd
    rw [List.cons_append, contains100DaysAux_cons]
    rw [Bool.or_eq_true]
    right
    apply ih (isWordCharJs c) hm
    rcases hbd with ⟨habs, _⟩ | ⟨u', ch, hu, hch⟩
    · exact absurd habs (by simp)
    · cases u' with
      | nil =>
        have h1 : c = ch ∧ u2 = [] := by
          simpa using hu
        exact Or.inl ⟨h1.2, by rw [h1.1]; exact hch⟩
      | cons w u'' =>
        have h1 : c = w ∧ u2 = u'' ++ [ch] := by
          simpa using hu
        exact Or.inr ⟨u'', ch, h1.2, hch⟩

theorem contains100Days_pad {l a b : List Char} (ha : a.all jsWs = true)
    (hb : b.all jsWs = true) (h : contains100Days l = true) :
    contains100Days (a ++ (l ++ b)) = true := by
  obtain ⟨u, v, rfl, hm, hbd⟩ := contains100DaysAux_split h
  have hm' : match100Days (v ++ b) = true := match100Days_append_ws hb hm
  have hsplit : a ++ ((u ++ v) ++ b) = (a ++ u) ++ (v ++ b) := by simp
  unfold contains100Days
  rw [hsplit]
  apply contains100DaysAux_join (a ++ u) false hm'
  rcases hbd with ⟨rfl, _⟩ | ⟨u', ch, rfl, hch⟩
  · rcases List.eq_nil_or_concat a with rfl | ⟨a', ch, hca⟩
    · exact Or.inl ⟨by simp, rfl⟩
    · refine Or.inr ⟨a', ch, by rw [hca]; simp [List.concat_eq_append], ?_⟩
      have hmem : ch ∈ a := by
        rw [hca]
        simp [List.concat_eq_append]
      exact jsWs_not_word (List.all_eq_true.1 ha ch hmem)
  · exact Or.inr ⟨a ++ u', ch, by simp, hch⟩

theorem isFooterLine_pad {l a b : List Char} (ha : a.all jsWs = true)
    (hb : b.all jsWs = true) (h : isFooterLine l = true) :
    isFooterLine (a ++ (l ++ b)) = true := by
  unfold isFooterLine at h ⊢
  rcases (Bool.or_eq_true _ _).mp h with h3 | h4
  · rcases (Bool.or_eq_true _ _).mp h3 with h1 | h2
    · rcases (Bool.or_eq_true _ _).mp h1 with h0 | h0'
      · simp [containsLinkToWiki_pad ha hb h0]
      · simp [isLinkToHeading_pad ha hb h0']
    · simp [isAreWeCloser_pad ha hb h2]
  · simp [contains100Days_pad ha hb h4]

theorem body_footer_free_some {lines : List (List Char)} {s k : Nat}
    (hf : List.findIdx? isFooterLine (lines.drop s) 0 = some k) :
    ∀ l ∈ (lines.take (s + k)).drop s, isFooterLine l = false := by
  intro l hl
  rw [List.drop_take] at hl
  have harith : s + k - s = k := by omega
  rw [harith] at hl
  have hall := fidx_take_all_false 0 k hf
  simp only [Nat.sub_zero] at hall
  exact hall l hl

theorem cleanJournalMarkdown_shape (t : List Char) :
    cleanJournalMarkdown t = [] ∨
    ∃ B : List (List Char), B ≠ [] ∧ (∀ l ∈ B, isFooterLine l = false) ∧
      (∀ l ∈ B, '\n' ∉ l) ∧ ¬(trimJs (collapseNl (joinNl B)) = []) ∧
      cleanJournalMarkdown t = trimJs (collapseNl (joinNl B)) ++ ['\n'] := by
  simp only [cleanJournalMarkdown]
  split
  · exact Or.inl rfl
  · rename_i hne
    right
    refine ⟨_, ?_, ?_, ?_, ?_, rfl⟩
    · intro h0
      rw [h0] at hne
      rw [(by decide :
        (trimJs (collapseNl (joinNl ([] : List (List Char))))).isEmpty = true)] at hne
      exact hne rfl
    · intro l hl
      split at hl
      · rename_i i hfm
        split at hl
        · rename_i k hf
          exact body_footer_free_some hf l hl
        · rename_i hf
          rw [List.take_length] at hl
          exact all_of_fidx_none 0 hf l hl
      · rename_i hfm
        split at hl
        · rename_i k hf
          exact body_footer_free_some hf l hl
        · rename_i hf
          rw [List.take_length] at hl
          exact all_of_fidx_none 0 hf l hl
    · intro l hl
      exact no_nl_in_splitNl t l (List.mem_of_mem_take (List.mem_of_mem_drop hl))
    · intro h0
      rw [h0] at hne
      simp at hne

/-- C5 counterexample: the normalizer is not idempotent.  On the input
"Must Dos\nA\nMust Dos\nB" the first pass strips only the first header
marker line, leaving a second "Must Dos" line in the body; the second
pass strips from that line again, so the two results differ. -/
theorem cleanJournalMarkdown_not_idempotent_cex :
    cleanJournalMarkdown (cleanJournalMarkdown "Must Dos\nA\nMust Dos\nB".toList) ≠
      cleanJournalMarkdown "Must Dos\nA\nMust Dos\nB".toList := by
  decide

/-- C5 (amended): the normalizer is idempotent on every input whose
once-cleaned output contains no line matching the Must Do's header
marker: if every line of `cleanJournalMarkdown t` fails `isMustDoLine`,
then a second application returns the first result unchanged. -/
theorem cleanJournalMarkdown_idem_no_header (t : List Char)
    (h : (splitNl (cleanJournalMarkdown t)).all (fun l => !isMustDoLine l) = true) :
    cleanJournalMarkdown (cleanJournalMarkdown t) = cleanJournalMarkdown t := by
  rcases cleanJournalMarkdown_shape t with h0 | ⟨B, hBne, hBfoot, hBnl, hcne, hs⟩
  · rw [h0]
    decide
  · rw [hs] at h ⊢
    obtain ⟨e, c', hhead_eq, hhead_ws⟩ := trimJs_head_not_ws hcne
    obtain ⟨c₀, d, hlast_eq, hlast_ws⟩ := trimJs_last_not_ws hcne
    have hBlines : splitNl (joinNl B) = B := splitNl_joinNl B hBne hBnl
    have hsub : List.Sublist (splitNl (collapseNl (joinNl B))) B := by
      have hss := collapse_lines_sublist (joinNl B)
      rw [hBlines] at hss
      exact hss
    have hYfoot : ∀ l ∈ splitNl (collapseNl (joinNl B)), isFooterLine l = false :=
      fun l hl => hBfoot l (hsub.subset hl)
    have hcfoot : ∀ l ∈ splitNl (trimJs (collapseNl (joinNl B))),
        isFooterLine l = false := by
      intro l hl
      obtain ⟨p, q, hp, hq, hdecomp⟩ := trimJs_decomp (collapseNl (joinNl B))
      obtain ⟨l1, hl1mem, b, hb, hl1eq⟩ := lines_append_ws q _ hq l hl
      obtain ⟨l2, hl2mem, a, haw, hl2eq⟩ := lines_prepend_ws p _ hp l1 hl1mem
      rw [← hdecomp] at hl2mem
      have hfoot2 : isFooterLine l2 = false := hYfoot l2 hl2mem
      cases hfl : isFooterLine l
      · rfl
      · have hpad := isFooterLine_pad haw hb hfl
        have hl2' : l2 = a ++ (l ++ b) := by rw [hl2eq, hl1eq]
        rw [← hl2'] at hpad
        rw [hpad] at hfoot2
        exact Bool.noConfusion hfoot2
    have hlines2 : splitNl (trimJs (collapseNl (joinNl B)) ++ ['\n']) =
        splitNl (trimJs (collapseNl (joinNl B))) ++ [[]] := splitNl_append_nl _
    have hh : ∀ l ∈ splitNl (trimJs (collapseNl (joinNl B)) ++ ['\n']),
        isMustDoLine l = false := by
      intro l hl
      have hx := List.all_eq_true.1 h l hl
      simpa using hx
    have hmd : List.findIdx? isMustDoLine
        (splitNl (trimJs (collapseNl (joinNl B)) ++ ['\n'])) 0 = none :=
      fidx_none_of_all hh 0
    have hfoot3 : ∀ l ∈ splitNl (trimJs (collapseNl (joinNl B)) ++ ['\n']),
        isFooterLine l = false := by
      intro l hl
      rw [hlines2] at hl
      rcases List.mem_append.1 hl with hin | hsing
      · exact hcfoot l hin
      · have hnil : l = [] := by simpa using hsing
        rw [hnil]
        decide
    have hft : List.findIdx? isFooterLine
        (splitNl (trimJs (collapseNl (joinNl B)) ++ ['\n'])) 0 = none :=
      fidx_none_of_all hfoot3 0
    have hctrip : ¬ List.IsInfix ['\n', '\n', '\n'] (trimJs (collapseNl (joinNl B))) :=
      fun htr => collapse_no_triple (joinNl B) (htr.trans (trimJs_within _))
    have hs_trip : ¬ List.IsInfix ['\n', '\n', '\n']
        (trimJs (collapseNl (joinNl B)) ++ ['\n']) :=
      no_triple_append_nl hctrip ⟨c₀, d, hlast_eq, hlast_ws⟩
    have hcollapse : collapseNl (trimJs (collapseNl (joinNl B)) ++ ['\n']) =
        trimJs (collapseNl (joinNl B)) ++ ['\n'] := collapse_id_of_no_triple hs_trip
    have htrim : trimJs (trimJs (collapseNl (joinNl B)) ++ ['\n']) =
        trimJs (collapseNl (joinNl B)) :=
      trimJs_append_nl ⟨e, c', hhead_eq, hhead_ws⟩ ⟨c₀, d, hlast_eq, hlast_ws⟩
    have hcie : (trimJs (collapseNl (joinNl B))).isEmpty = false :=
      List.isEmpty_eq_false.2 hcne
    simp only [cleanJournalMarkdown, hmd, hft, List.drop_zero, List.take_length,
      joinNl_splitNl, hcollapse, htrim, hcie, Bool.false_eq_true, if_false]

/-- Witness for the amended C5 theorem at the concrete input "hello":
its cleaned form "hello\n" has no header-marker line, and a second
normalizer pass leaves it unchanged. -/
theorem cleanJournalMarkdown_idem_no_header_witness :
    ((splitNl (cleanJournalMarkdown "hello".toList)).all
      (fun l => !isMustDoLine l) = true) ∧
    cleanJournalMarkdown (cleanJournalMarkdown "hello".toList) =
      cleanJournalMarkdown "hello".toList :=
  ⟨by decide, cleanJournalMarkdown_idem_no_header _ (by decide)⟩
